import Mathlib

/-!
Verification of the persistent-queue and inotify-monitor components of the
fileconveyor repository against its natural-language specification.

The first part is a shallow embedding of `persistent_queue.py`: the SQLite
table becomes a list of rows `(id, item, key)` kept in ascending-id order
(ids are assigned from a strictly increasing `nextId`, mirroring
`INTEGER PRIMARY KEY AUTOINCREMENT`), and the in-memory cache
(`memory_queue`, `lowest_id_in_queue`, `highest_id_in_queue`,
`has_new_data`) is carried explicitly.  Keys are represented by their
hash values (the source stores only `md5(key)`), so the key type `κ` of
the embedding stands for the set of 32-hex-digit digests.

The second part embeds the pieces of `fsmonitor_inotify.py` needed for
the service-loop and event-translation claims.
-/

namespace Fileconveyor

/-- The exception taxonomy of `persistent_queue.py`.  `indexError` stands for
the uncaught Python `IndexError` raised by `self.memory_queue[0]` /
`.pop(0)` on an empty list. -/
inductive PQError where
  | empty
  | alreadyExists
  | updateForNonExistingKey
  | indexError
deriving DecidableEq

/-- State of a `PersistentQueue` object together with its SQLite table.
`table` holds the rows `(id, item, key)` in ascending-id order; `nextId` is
the AUTOINCREMENT counter (next id to be assigned, ids start at 1). -/
structure PQ (α : Type) (κ : Type) where
  table : List (Int × α × κ)
  nextId : Int
  size : Int
  maxInMemory : Nat
  minInMemory : Nat
  memoryQueue : List (Int × α)
  lowestId : Int
  highestId : Int
  hasNewData : Bool

variable {α : Type} {κ : Type} [DecidableEq κ]

/-- `PersistentQueue.__init__` on a fresh database file: empty table,
`size = COUNT(id) = 0`, `lowest_id_in_queue = highest_id_in_queue = 0`,
`has_new_data = False`. -/
def PQ.new (maxInMemory minInMemory : Nat) : PQ α κ :=
  { table := [], nextId := 1, size := 0,
    maxInMemory := maxInMemory, minInMemory := minInMemory,
    memoryQueue := [], lowestId := 0, highestId := 0, hasNewData := false }

/-- `PersistentQueue.qsize`. -/
def PQ.qsize (q : PQ α κ) : Int := q.size

/-- `PersistentQueue.empty`. -/
def PQ.emptyb (q : PQ α κ) : Bool := decide (q.size = 0)

/-- `PersistentQueue.__update_memory_queue(refresh)`.  The SQL
`SELECT id, item FROM t WHERE id > ? ORDER BY id ASC LIMIT 0,n` becomes a
filter over the ascending-id `table` followed by `take` (a negative SQLite
LIMIT means "no limit").  The `for id, item in resultList` loop appends the
pairs and leaves `highest_id_in_queue` at the last fetched id, which the
fold reproduces. -/
def PQ.updateMemoryQueue (q : PQ α κ) (refresh : Bool) : PQ α κ :=
  let mq0 := if refresh then [] else q.memoryQueue
  if q.hasNewData = true ∨ mq0.length < q.minInMemory then
    let lowest : Int :=
      match mq0.head? with
      | none => -1
      | some p => p.1
    let minId : Int := if refresh then lowest - 1 else q.highestId
    let lim : Int := (q.maxInMemory : Int) - (mq0.length : Int)
    let fetchedRows := q.table.filter (fun r => decide (minId < r.1))
    let fetched := if lim < 0 then fetchedRows else fetchedRows.take lim.toNat
    { q with memoryQueue := mq0 ++ fetched.map (fun r => (r.1, r.2.1)),
             lowestId := lowest,
             highestId := fetched.foldl (fun _ r => r.1) q.highestId,
             hasNewData := false }
  else
    { q with memoryQueue := mq0, hasNewData := false }

/-- `PersistentQueue.put(item, key)` (with `key` already hashed, as the
source does before the INSERT).  The UNIQUE index on `key` makes the INSERT
raise `IntegrityError` when the hash is already present, which `put` turns
into `AlreadyExists`; nothing is committed in that case. -/
def PQ.put (q : PQ α κ) (item : α) (key : κ) : Except PQError Unit × PQ α κ :=
  if q.table.any (fun r => decide (r.2.2 = key)) then
    (.error .alreadyExists, q)
  else
    (.ok (), { q with table := q.table ++ [(q.nextId, item, key)],
                      nextId := q.nextId + 1,
                      size := q.size + 1,
                      hasNewData := true })

/-- `PersistentQueue.peek`. -/
def PQ.peek (q : PQ α κ) : Except PQError α × PQ α κ :=
  if q.size = 0 then (.error .empty, q)
  else
    let q1 := q.updateMemoryQueue false
    match q1.memoryQueue.head? with
    | none => (.error .indexError, q1)
    | some p => (.ok p.2, q1)

/-- `PersistentQueue.get`: pop the head of the memory queue and delete its
row (`DELETE FROM t WHERE id = ?`). -/
def PQ.get (q : PQ α κ) : Except PQError α × PQ α κ :=
  if q.size = 0 then (.error .empty, q)
  else
    let q1 := q.updateMemoryQueue false
    match q1.memoryQueue with
    | [] => (.error .indexError, q1)
    | p :: rest =>
      (.ok p.2, { q1 with memoryQueue := rest,
                          table := q1.table.filter (fun r => decide (¬ r.1 = p.1)),
                          size := q1.size - 1 })

/-- `PersistentQueue.remove_item_for_key(key)`: `SELECT id WHERE key = ?`,
and when a row exists, `DELETE FROM t WHERE key = ?`, decrement `size`, and
refresh the memory queue when the deleted id lies inside
`[lowest_id_in_queue, highest_id_in_queue]`. -/
def PQ.remove_item_for_key (q : PQ α κ) (key : κ) : PQ α κ :=
  match (q.table.filter (fun r => decide (r.2.2 = key))).head? with
  | none => q
  | some r =>
    let q1 : PQ α κ :=
      { q with table := q.table.filter (fun s => decide (¬ s.2.2 = key)),
               size := q.size - 1 }
    if q.lowestId ≤ r.1 ∧ r.1 ≤ q.highestId then q1.updateMemoryQueue true
    else q1

/-- `PersistentQueue.update(item, key)`: fail with
`UpdateForNonExistingKey` when no row carries the key's hash; otherwise
`UPDATE t SET item = ? WHERE key = ?` and refresh the memory queue when the
row's id lies inside `[lowest_id_in_queue, highest_id_in_queue]`. -/
def PQ.update (q : PQ α κ) (item : α) (key : κ) :
    Except PQError Unit × PQ α κ :=
  match (q.table.filter (fun r => decide (r.2.2 = key))).head? with
  | none => (.error .updateForNonExistingKey, q)
  | some r =>
    let q1 : PQ α κ :=
      { q with table :=
          q.table.map (fun s => if s.2.2 = key then (s.1, item, s.2.2) else s) }
    if q.lowestId ≤ r.1 ∧ r.1 ≤ q.highestId then
      (.ok (), q1.updateMemoryQueue true)
    else (.ok (), q1)

/-- Sequential driver: perform one `put` per list element, stopping at the
first failure. -/
def putAll (q : PQ α κ) : List (α × κ) → Except PQError Unit × PQ α κ
  | [] => (.ok (), q)
  | p :: rest =>
    match q.put p.1 p.2 with
    | (.ok _, q1) => putAll q1 rest
    | (e, q1) => (e, q1)

/-- Sequential driver: perform `n` `get` calls, collecting the returned
items, stopping at the first failure. -/
def getAll (q : PQ α κ) : Nat → Except PQError (List α) × PQ α κ
  | 0 => (.ok [], q)
  | n + 1 =>
    match q.get with
    | (.ok x, q1) =>
      match getAll q1 n with
      | (.ok xs, q2) => (.ok (x :: xs), q2)
      | (e, q2) => (e, q2)
    | (.error e, q1) => (.error e, q1)

/-! ## fsmonitor_inotify.py -/

/-- Kernel inotify bit for content modification (fixed Linux ABI value, as
exposed by `pyinotify.IN_MODIFY`). -/
def IN_MODIFY : Nat := 2

/-- Kernel inotify bit for attribute/metadata change (`pyinotify.IN_ATTRIB`). -/
def IN_ATTRIB : Nat := 4

/-- Kernel inotify bit for creation (`pyinotify.IN_CREATE`). -/
def IN_CREATE : Nat := 256

/-- Kernel inotify bit for deletion (`pyinotify.IN_DELETE`). -/
def IN_DELETE : Nat := 512

/-- Kernel inotify bit for a watched directory being moved
(`pyinotify.IN_MOVE_SELF`). -/
def IN_MOVE_SELF : Nat := 2048

/-- Kernel inotify bit for event-queue overflow (`pyinotify.IN_Q_OVERFLOW`). -/
def IN_Q_OVERFLOW : Nat := 16384

namespace FSMonitor

/-- Modelled from the spec: `FSMonitor.CREATED` lives in `fsmonitor.py`,
which is not part of the sources here.  The spec describes the canonical
event kinds as a closed five-element set that event masks combine by
bitwise OR, so the kinds are modelled as five distinct bits. -/
def CREATED : Nat := 1

/-- Modelled from the spec: canonical `MODIFIED` kind (see `CREATED`). -/
def MODIFIED : Nat := 2

/-- Modelled from the spec: canonical `DELETED` kind (see `CREATED`). -/
def DELETED : Nat := 4

/-- Modelled from the spec: canonical `MONITORED_DIR_MOVED` kind
(see `CREATED`). -/
def MONITORED_DIR_MOVED : Nat := 8

/-- Modelled from the spec: canonical `DROPPED_EVENTS` kind
(see `CREATED`). -/
def DROPPED_EVENTS : Nat := 16

end FSMonitor

/-- `FSMonitorInotify.EVENTMAPPING` as an association list, in source
order (the dict's iteration order does not affect the bitwise-OR result). -/
def EVENTMAPPING : List (Nat × Nat) :=
  [(FSMonitor.CREATED, IN_CREATE),
   (FSMonitor.MODIFIED, IN_MODIFY ||| IN_ATTRIB),
   (FSMonitor.DELETED, IN_DELETE),
   (FSMonitor.MONITORED_DIR_MOVED, IN_MOVE_SELF),
   (FSMonitor.DROPPED_EVENTS, IN_Q_OVERFLOW)]

/-- `FSMonitorInotify.__fsmonitor_event_to_inotify_event`: start from 0 and
OR in the kernel bits of every canonical kind whose bit is set in the
mask (`if event_mask & fsmonitor_event_mask:` tests for a non-zero AND). -/
def fsmonitorEventToInotifyEvent (event_mask : Nat) : Nat :=
  EVENTMAPPING.foldl
    (fun acc kv => if event_mask &&& kv.1 ≠ 0 then acc ||| kv.2 else acc) 0

/-- A Python value that can sit in `__remove_dir`'s argument: either a path
string (what `remove_queue` holds) or a `(path, event_mask)` tuple (what
`add_queue` holds).  `__remove_dir` compares its argument against the
string keys of `monitored_paths`, so a tuple never matches. -/
inductive PyVal where
  | str : String → PyVal
  | tup : String → Nat → PyVal
deriving DecidableEq

/-- The slice of `FSMonitorInotify` state that `__process_queues` touches:
the two request queues and the keys of `monitored_paths`. -/
structure FSMState where
  addQueue : List (String × Nat)
  removeQueue : List PyVal
  monitoredPaths : List String
deriving DecidableEq

/-- `FSMonitorInotify.__add_dir` restricted to its effect on
`monitored_paths` (the inotify watch installation is external):
`self.monitored_paths[path] = MonitoredPath(...)` inserts the key. -/
def FSMState.addDir (m : FSMState) (path : String) : FSMState :=
  if path ∈ m.monitoredPaths then m
  else { m with monitoredPaths := m.monitoredPaths ++ [path] }

/-- `FSMonitorInotify.__remove_dir`: delete `path` from `monitored_paths`
when it is one of its keys (the keys are strings, so a tuple argument
never matches and the call is a no-op). -/
def FSMState.removeDir (m : FSMState) (v : PyVal) : FSMState :=
  if (m.monitoredPaths.map PyVal.str).contains v then
    { m with monitoredPaths :=
        m.monitoredPaths.filter (fun p => decide (¬ PyVal.str p = v)) }
  else m

/-- One tick of `FSMonitorInotify.__process_queues` (the PathScanner flush
phase does not touch this state slice).  Phase 1 drains one request from
`add_queue`.  Phase 2 tests `remove_queue.empty()` but then executes
`path = self.add_queue.get()` — it dequeues from the ADD queue; on an
empty add queue `Queue.get()` blocks forever, modelled as `none`. -/
def processQueues (m : FSMState) : Option FSMState :=
  let m1 :=
    match m.addQueue with
    | [] => m
    | (path, _mask) :: rest => FSMState.addDir { m with addQueue := rest } path
  match m1.removeQueue with
  | [] => some m1
  | _ :: _ =>
    match m1.addQueue with
    | [] => none
    | (path, mask) :: rest =>
      some (FSMState.removeDir { m1 with addQueue := rest } (PyVal.tup path mask))

/-! ## The queue invariant -/

/-- The part of the invariant that concerns the durable side only:
parameters are well formed (the source's defaults are
`max_in_memory=100, min_in_memory=50`), the table is strictly ascending in
id, ids are positive and below the AUTOINCREMENT counter, keys are unique
(the UNIQUE index), and `size` counts the rows. -/
structure PreInv (q : PQ α κ) : Prop where
  wfMin : 1 ≤ q.minInMemory
  wfMax : q.minInMemory ≤ q.maxInMemory
  sorted : q.table.Pairwise (fun a b => a.1 < b.1)
  keysU : q.table.Pairwise (fun a b => a.2.2 ≠ b.2.2)
  idsPos : ∀ r ∈ q.table, 1 ≤ r.1
  idsLt : ∀ r ∈ q.table, r.1 < q.nextId
  nextPos : 1 ≤ q.nextId
  sizeEq : q.size = (q.table.length : Int)
  highLt : q.highestId < q.nextId

/-- The part of the invariant that concerns the in-memory window: it is
the id/item projection of a prefix of the table, bounded by
`max_in_memory`, its ids lie in `[lowest_id_in_queue, highest_id_in_queue]`,
and every row beyond it has id above `highest_id_in_queue`. -/
structure WinInv (q : PQ α κ) : Prop where
  window : q.memoryQueue =
    (q.table.take q.memoryQueue.length).map (fun r => (r.1, r.2.1))
  winLe : q.memoryQueue.length ≤ q.maxInMemory
  winHigh : ∀ p ∈ q.memoryQueue, p.1 ≤ q.highestId
  dropHigh : ∀ r ∈ q.table.drop q.memoryQueue.length, q.highestId < r.1
  lowLe : ∀ p ∈ q.memoryQueue, q.lowestId ≤ p.1

/-- Full state invariant of `PersistentQueue`. -/
def Inv (q : PQ α κ) : Prop := PreInv q ∧ WinInv q

/-- States reachable by the public queue operations from a freshly
constructed queue with well-formed cache parameters. -/
inductive Reachable : PQ α κ → Prop where
  | init (maxI minI : Nat) (h1 : 1 ≤ minI) (h2 : minI ≤ maxI) :
      Reachable (PQ.new maxI minI)
  | putR (q : PQ α κ) (i : α) (k : κ) :
      Reachable q → Reachable (q.put i k).2
  | getR (q : PQ α κ) : Reachable q → Reachable q.get.2
  | peekR (q : PQ α κ) : Reachable q → Reachable q.peek.2
  | updateR (q : PQ α κ) (i : α) (k : κ) :
      Reachable q → Reachable (q.update i k).2
  | removeR (q : PQ α κ) (k : κ) :
      Reachable q → Reachable (q.remove_item_for_key k)

/-! ## Theorems -/

/-! ## List helpers -/

theorem pairwise_lt_getLast {ρ : Type} {f : ρ → Int} {l : List ρ}
    (hs : l.Pairwise (fun a b => f a < f b)) (hne : l ≠ []) :
    ∀ x ∈ l, f x ≤ f (l.getLast hne) := by
  induction l with
  | nil => exact absurd rfl hne
  | cons a t ih =>
    intro x hx
    cases t with
    | nil =>
      rcases List.mem_cons.mp hx with rfl | h
      · simp [List.getLast]
      · cases h
    | cons b m =>
      rw [List.getLast_cons (List.cons_ne_nil b m)]
      rcases List.mem_cons.mp hx with rfl | h
      · exact le_of_lt ((List.pairwise_cons.mp hs).1 _
          (List.getLast_mem (List.cons_ne_nil b m)))
      · exact ih (List.pairwise_cons.mp hs).2 (List.cons_ne_nil b m) x h

theorem foldl_pick_eq_getLast {ρ : Type} {f : ρ → Int} :
    ∀ (l : List ρ) (a : Int) (hne : l ≠ []),
      l.foldl (fun _ r => f r) a = f (l.getLast hne)
  | [], _, hne => absurd rfl hne
  | x :: m, a, _ => by
    cases m with
    | nil => simp [List.getLast]
    | cons b m' =>
      rw [List.foldl_cons, foldl_pick_eq_getLast (b :: m') (f x)
        (List.cons_ne_nil b m'), List.getLast_cons (List.cons_ne_nil b m')]

theorem pairwise_take_drop {ρ : Type} {R : ρ → ρ → Prop} {l : List ρ}
    (h : l.Pairwise R) (n : Nat) :
    ∀ x ∈ l.take n, ∀ y ∈ l.drop n, R x y := by
  have h2 : (l.take n ++ l.drop n).Pairwise R := by
    rw [List.take_append_drop]; exact h
  exact (List.pairwise_append.mp h2).2.2

theorem mem_of_head?_eq_some {ρ : Type} {l : List ρ} {x : ρ}
    (h : l.head? = some x) : x ∈ l := by
  cases l with
  | nil => cases h
  | cons a t =>
    simp only [List.head?_cons, Option.some.injEq] at h
    exact h ▸ List.mem_cons_self a t

theorem map_eq_self_of_mem {ρ : Type} {f : ρ → ρ} :
    ∀ {l : List ρ}, (∀ x ∈ l, f x = x) → l.map f = l
  | [], _ => rfl
  | a :: t, h => by
    rw [List.map_cons, h a (List.mem_cons_self a t),
      map_eq_self_of_mem (fun x hx => h x (List.mem_cons_of_mem a hx))]

/-- Split a table at the (unique) row carrying key `k`: the rows before and
after it all carry other keys. -/
theorem key_split {t : List (Int × α × κ)} {r : Int × α × κ} {k : κ}
    (hu : t.Pairwise (fun a b => a.2.2 ≠ b.2.2)) (hr : r ∈ t)
    (hk : r.2.2 = k) :
    ∃ A B, t = A ++ r :: B ∧ (∀ s ∈ A, ¬ s.2.2 = k) ∧
      (∀ s ∈ B, ¬ s.2.2 = k) := by
  induction t with
  | nil => cases hr
  | cons a t ih =>
    rcases List.mem_cons.mp hr with rfl | hr'
    · refine ⟨[], t, rfl, by simp, fun s hs h => ?_⟩
      exact (List.pairwise_cons.mp hu).1 s hs (hk.trans h.symm)
    · obtain ⟨A, B, h1, h2, h3⟩ := ih (List.pairwise_cons.mp hu).2 hr'
      refine ⟨a :: A, B, by rw [h1]; rfl, ?_, h3⟩
      intro s hs
      rcases List.mem_cons.mp hs with rfl | hs'
      · exact fun h =>
          (List.pairwise_cons.mp hu).1 r hr' (h.trans hk.symm)
      · exact h2 s hs'

theorem filter_key_singleton {t : List (Int × α × κ)} {r : Int × α × κ}
    {k : κ} (hu : t.Pairwise (fun a b => a.2.2 ≠ b.2.2)) (hr : r ∈ t)
    (hk : r.2.2 = k) :
    t.filter (fun s => decide (s.2.2 = k)) = [r] := by
  obtain ⟨A, B, rfl, hA, hB⟩ := key_split hu hr hk
  rw [List.filter_append, List.filter_cons]
  have hA' : A.filter (fun s => decide (s.2.2 = k)) = [] :=
    List.filter_eq_nil_iff.mpr (by simpa using hA)
  have hB' : B.filter (fun s => decide (s.2.2 = k)) = [] :=
    List.filter_eq_nil_iff.mpr (by simpa using hB)
  simp [hA', hB', hk]

theorem filter_key_absent {t : List (Int × α × κ)} {k : κ}
    (h : ∀ s ∈ t, ¬ s.2.2 = k) :
    t.filter (fun s => decide (s.2.2 = k)) = [] :=
  List.filter_eq_nil_iff.mpr (by simpa using h)

/-! ## Characterizing `__update_memory_queue` -/

/-- When the ids below `minId` are exactly the first `n` rows, the SQL
fetch (`WHERE id > ?`) returns exactly the rows from position `n` on. -/
theorem fetch_eq_drop_take (t : List (Int × α × κ)) (n : Nat) (minId : Int)
    (hpre : ∀ s ∈ t.take n, ¬ minId < s.1)
    (hpost : ∀ s ∈ t.drop n, minId < s.1) :
    t.filter (fun r => decide (minId < r.1)) = t.drop n := by
  conv_lhs => rw [← List.take_append_drop n t]
  rw [List.filter_append,
    List.filter_eq_nil_iff.mpr (by simpa using hpre),
    List.filter_eq_self.mpr (by simpa using hpost), List.nil_append]

theorem window_join (t : List (Int × α × κ)) (n k : Nat) :
    (t.take n).map (fun r : Int × α × κ => (r.1, r.2.1)) ++
      ((t.drop n).take k).map (fun r : Int × α × κ => (r.1, r.2.1)) =
    (t.take (n + k)).map (fun r : Int × α × κ => (r.1, r.2.1)) := by
  rw [List.take_add, List.map_append]

/-- Explicit form of the refill branch of `__update_memory_queue`. -/
theorem umq_shape (q : PQ α κ) (b : Bool) (mq0 : List (Int × α))
    (hmq0 : mq0 = if b then [] else q.memoryQueue)
    (hC : q.hasNewData = true ∨ mq0.length < q.minInMemory)
    (hlen : mq0.length ≤ q.maxInMemory) :
    q.updateMemoryQueue b =
      { q with
          memoryQueue := mq0 ++
            ((q.table.filter (fun r => decide
                ((if b then (match mq0.head? with
                    | none => (-1 : Int)
                    | some p => p.1) - 1
                  else q.highestId) < r.1))).take
              (q.maxInMemory - mq0.length)).map (fun r => (r.1, r.2.1)),
          lowestId :=
            match mq0.head? with
            | none => -1
            | some p => p.1,
          highestId :=
            ((q.table.filter (fun r => decide
                ((if b then (match mq0.head? with
                    | none => (-1 : Int)
                    | some p => p.1) - 1
                  else q.highestId) < r.1))).take
              (q.maxInMemory - mq0.length)).foldl (fun _ r => r.1) q.highestId,
          hasNewData := false } := by
  subst hmq0
  simp only [PQ.updateMemoryQueue]
  rw [if_pos hC]
  rw [if_neg (show ¬ ((q.maxInMemory : Int) -
      (((if b then ([] : List (Int × α)) else q.memoryQueue)).length : Int) < 0)
    by omega)]
  rw [show ((q.maxInMemory : Int) -
      (((if b then ([] : List (Int × α)) else q.memoryQueue)).length : Int)).toNat
      = q.maxInMemory - ((if b then ([] : List (Int × α)) else q.memoryQueue)).length
    by omega]

/-- The non-refill branch of `__update_memory_queue`: only
`has_new_data` is cleared. -/
theorem umq_norefill (q : PQ α κ)
    (hC : ¬ (q.hasNewData = true ∨ q.memoryQueue.length < q.minInMemory)) :
    q.updateMemoryQueue false = { q with hasNewData := false } := by
  simp only [PQ.updateMemoryQueue]
  rw [if_neg (by simpa using hC)]
  simp

end Fileconveyor


namespace Fileconveyor
variable {α : Type} {κ : Type} [DecidableEq κ]

set_option maxHeartbeats 1000000

/-- Master lemma for the refill branch: starting from a valid durable state
and a window seed `mq0` that is a valid table front, the refill produces a
state satisfying the full invariant, with the window grown to
`min (table length) max_in_memory`. -/
theorem refill_master (q Q2 : PQ α κ) (hP : PreInv q) (mq0 : List (Int × α))
    (minId : Int)
    (hQ : Q2 = { q with
      memoryQueue := mq0 ++
        ((q.table.filter (fun r => decide (minId < r.1))).take
          (q.maxInMemory - mq0.length)).map (fun r => (r.1, r.2.1)),
      lowestId := match mq0.head? with | none => -1 | some p => p.1,
      highestId := ((q.table.filter (fun r => decide (minId < r.1))).take
          (q.maxInMemory - mq0.length)).foldl (fun _ r => r.1) q.highestId,
      hasNewData := false })
    (hw : mq0 = (q.table.take mq0.length).map (fun r => (r.1, r.2.1)))
    (hlen : mq0.length ≤ q.maxInMemory)
    (hhiOld : ∀ p ∈ mq0, p.1 ≤ q.highestId)
    (hOldNew : ∀ p ∈ mq0, ∀ s ∈ q.table.drop mq0.length, p.1 < s.1)
    (hpre : ∀ s ∈ q.table.take mq0.length, ¬ minId < s.1)
    (hpost : ∀ s ∈ q.table.drop mq0.length, minId < s.1)
    (hD0 : (q.table.drop mq0.length).take (q.maxInMemory - mq0.length) = [] →
      ∀ s ∈ q.table.drop mq0.length, q.highestId < s.1) :
    PreInv Q2 ∧ WinInv Q2 ∧
    Q2.memoryQueue.length = min q.table.length q.maxInMemory ∧
    Q2.table = q.table ∧ Q2.size = q.size ∧ Q2.nextId = q.nextId ∧
    Q2.maxInMemory = q.maxInMemory ∧ Q2.minInMemory = q.minInMemory ∧
    Q2.hasNewData = false := by
  have hfe : q.table.filter (fun r => decide (minId < r.1))
      = q.table.drop mq0.length :=
    fetch_eq_drop_take _ _ _ hpre hpost
  rw [hfe] at hQ
  subst hQ
  have hnt : mq0.length ≤ q.table.length := by
    have h := congrArg List.length hw
    rw [List.length_map, List.length_take] at h
    omega
  have sortedD : (q.table.drop mq0.length).Pairwise
      (fun a b : Int × α × κ => a.1 < b.1) :=
    List.Pairwise.sublist (List.drop_sublist _ _) hP.sorted
  have sortedF : ((q.table.drop mq0.length).take
        (q.maxInMemory - mq0.length)).Pairwise
      (fun a b : Int × α × κ => a.1 < b.1) :=
    List.Pairwise.sublist (List.take_sublist _ _) sortedD
  have hFsubD : ∀ x ∈ (q.table.drop mq0.length).take
      (q.maxInMemory - mq0.length), x ∈ q.table.drop mq0.length :=
    fun x hx => (List.take_sublist _ _).subset hx
  have hDsubT : ∀ x ∈ q.table.drop mq0.length, x ∈ q.table :=
    fun x hx => (List.drop_sublist _ _).subset hx
  have hfl : ((q.table.drop mq0.length).take
        (q.maxInMemory - mq0.length)).length
      = (q.maxInMemory - mq0.length) ⊓ (q.table.drop mq0.length).length :=
    List.length_take _ _
  have hDlen : (q.table.drop mq0.length).length
      = q.table.length - mq0.length := List.length_drop _ _
  have hfk : (q.table.drop mq0.length).take (q.maxInMemory - mq0.length)
      = (q.table.drop mq0.length).take
          ((q.table.drop mq0.length).take
            (q.maxInMemory - mq0.length)).length := by
    apply List.take_eq_take.mpr
    omega
  -- the new highest id
  have hHold : ∀ hne : (q.table.drop mq0.length).take
      (q.maxInMemory - mq0.length) ≠ [],
      ((q.table.drop mq0.length).take (q.maxInMemory - mq0.length)).foldl
        (fun _ r => r.1) q.highestId
      = (((q.table.drop mq0.length).take
          (q.maxInMemory - mq0.length)).getLast hne).1 :=
    fun hne => foldl_pick_eq_getLast _ _ hne
  -- window contents: a front of the table
  have hwin : mq0 ++ ((q.table.drop mq0.length).take
        (q.maxInMemory - mq0.length)).map (fun r => (r.1, r.2.1))
      = (q.table.take (mq0.length + ((q.table.drop mq0.length).take
          (q.maxInMemory - mq0.length)).length)).map (fun r => (r.1, r.2.1)) :=
    calc mq0 ++ ((q.table.drop mq0.length).take
          (q.maxInMemory - mq0.length)).map (fun r => (r.1, r.2.1))
        = (q.table.take mq0.length).map (fun r : Int × α × κ => (r.1, r.2.1)) ++
            ((q.table.drop mq0.length).take
              ((q.table.drop mq0.length).take
                (q.maxInMemory - mq0.length)).length).map
              (fun r : Int × α × κ => (r.1, r.2.1)) := by
          rw [← hw, ← hfk]
      _ = (q.table.take (mq0.length + ((q.table.drop mq0.length).take
            (q.maxInMemory - mq0.length)).length)).map
            (fun r => (r.1, r.2.1)) := window_join _ _ _
  have hmlen : (mq0 ++ ((q.table.drop mq0.length).take
        (q.maxInMemory - mq0.length)).map
        (fun r : Int × α × κ => (r.1, r.2.1))).length
      = mq0.length + ((q.table.drop mq0.length).take
          (q.maxInMemory - mq0.length)).length := by
    rw [List.length_append, List.length_map]
  refine ⟨⟨hP.wfMin, hP.wfMax, hP.sorted, hP.keysU, hP.idsPos, hP.idsLt,
      hP.nextPos, hP.sizeEq, ?_⟩, ⟨?_, ?_, ?_, ?_, ?_⟩, ?_, rfl, rfl, rfl,
      rfl, rfl, rfl⟩
  · -- highLt
    show ((q.table.drop mq0.length).take (q.maxInMemory - mq0.length)).foldl
        (fun _ r => r.1) q.highestId < q.nextId
    rcases eq_or_ne ((q.table.drop mq0.length).take
        (q.maxInMemory - mq0.length)) [] with he | hne
    · rw [he]; exact hP.highLt
    · rw [hHold hne]
      exact hP.idsLt _ (hDsubT _ (hFsubD _ (List.getLast_mem hne)))
  · -- window
    show mq0 ++ _ = (q.table.take (mq0 ++ _).length).map _
    rw [hmlen]
    exact hwin
  · -- winLe
    show (mq0 ++ _).length ≤ q.maxInMemory
    rw [hmlen]
    omega
  · -- winHigh
    intro p hp
    rcases List.mem_append.mp hp with h1 | h2
    · rcases eq_or_ne ((q.table.drop mq0.length).take
          (q.maxInMemory - mq0.length)) [] with he | hne
      · show p.1 ≤ _
        rw [show ((q.table.drop mq0.length).take
            (q.maxInMemory - mq0.length)).foldl (fun _ r => r.1) q.highestId
          = q.highestId from by rw [he, List.foldl_nil]]
        exact hhiOld p h1
      · show p.1 ≤ _
        rw [hHold hne]
        exact le_of_lt (hOldNew p h1 _ (hFsubD _ (List.getLast_mem hne)))
    · obtain ⟨s, hs, rfl⟩ := List.mem_map.mp h2
      have hne : (q.table.drop mq0.length).take
          (q.maxInMemory - mq0.length) ≠ [] := by
        intro he; rw [he] at hs; cases hs
      show s.1 ≤ _
      rw [hHold hne]
      exact pairwise_lt_getLast (f := fun r : Int × α × κ => r.1)
        sortedF hne s hs
  · -- dropHigh
    intro r hr
    rw [hmlen] at hr
    rcases eq_or_ne ((q.table.drop mq0.length).take
        (q.maxInMemory - mq0.length)) [] with he | hne
    · show _ < r.1
      rw [show ((q.table.drop mq0.length).take
          (q.maxInMemory - mq0.length)).foldl (fun _ r => r.1) q.highestId
        = q.highestId from by rw [he, List.foldl_nil]]
      apply hD0 he
      rw [he] at hr
      simp only [List.length_nil, Nat.add_zero] at hr
      exact hr
    · show _ < r.1
      rw [hHold hne]
      have hr' : r ∈ (q.table.drop mq0.length).drop
          ((q.table.drop mq0.length).take (q.maxInMemory - mq0.length)).length := by
        rw [List.drop_drop]
        exact hr
      exact pairwise_take_drop sortedD _ _ (by rw [← hfk]; exact List.getLast_mem hne)
        r hr'
  · -- lowLe
    intro p hp
    cases mq0 with
    | nil =>
      simp only [List.nil_append] at hp
      obtain ⟨s, hs, rfl⟩ := List.mem_map.mp hp
      have : 1 ≤ s.1 := hP.idsPos s (hDsubT _ (hFsubD _ hs))
      show (-1 : Int) ≤ s.1
      omega
    | cons h0 tl0 =>
      have hsortedW : (h0 :: tl0).Pairwise (fun a b : Int × α => a.1 < b.1) := by
        rw [hw]
        exact List.pairwise_map.mpr
          (List.Pairwise.sublist (List.take_sublist _ _)
            (hP.sorted.imp (fun hab => hab)))
      rcases List.mem_append.mp hp with h1 | h2
      · show h0.1 ≤ p.1
        rcases List.mem_cons.mp h1 with rfl | h1'
        · exact le_refl _
        · exact le_of_lt ((List.pairwise_cons.mp hsortedW).1 p h1')
      · obtain ⟨s, hs, rfl⟩ := List.mem_map.mp h2
        show h0.1 ≤ s.1
        exact le_of_lt (hOldNew h0 (List.mem_cons_self _ _) s (hFsubD _ hs))
  · -- length formula
    show (mq0 ++ _).length = _
    rw [hmlen]
    omega

end Fileconveyor

namespace Fileconveyor

variable {α : Type} {κ : Type} [DecidableEq κ]

/-- Full characterization of `__update_memory_queue` on invariant states
(for `refresh = true` only the durable half of the invariant is needed,
since the window is discarded first). -/
theorem umq_spec (q : PQ α κ) (b : Bool) (hP : PreInv q)
    (hW : b = false → WinInv q) :
    (q.updateMemoryQueue b).table = q.table ∧
    (q.updateMemoryQueue b).size = q.size ∧
    (q.updateMemoryQueue b).nextId = q.nextId ∧
    (q.updateMemoryQueue b).maxInMemory = q.maxInMemory ∧
    (q.updateMemoryQueue b).minInMemory = q.minInMemory ∧
    (q.updateMemoryQueue b).hasNewData = false ∧
    PreInv (q.updateMemoryQueue b) ∧ WinInv (q.updateMemoryQueue b) ∧
    (q.updateMemoryQueue b).memoryQueue.length =
      (if b = true ∨ q.hasNewData = true ∨ q.memoryQueue.length < q.minInMemory
       then min q.table.length q.maxInMemory
       else q.memoryQueue.length) := by
  cases b with
  | true =>
    have hC : q.hasNewData = true ∨ ([] : List (Int × α)).length < q.minInMemory := by
      right
      simpa using hP.wfMin
    have hsh := umq_shape q true [] rfl hC (Nat.zero_le _)
    have hm := refill_master q (q.updateMemoryQueue true) hP [] _ hsh
      (by simp) (Nat.zero_le _) (by simp) (by simp)
      (by simp)
      (by
        intro s hs
        show (-1 : Int) - 1 < s.1
        have := hP.idsPos s (by simpa using hs)
        omega)
      (by
        intro he s hs
        exfalso
        simp only [List.length_nil, List.drop_zero, Nat.sub_zero] at he hs
        rw [List.take_eq_nil_iff] at he
        have h1 : 1 ≤ q.minInMemory := hP.wfMin
        have h2 : q.minInMemory ≤ q.maxInMemory := hP.wfMax
        rcases he with he | he
        · omega
        · rw [he] at hs
          simp at hs)
    obtain ⟨h1, h2, h3, h4, h5, h6, h7, h8, h9⟩ := hm
    refine ⟨h4, h5, h6, h7, h8, h9, h1, h2, ?_⟩
    rw [if_pos (Or.inl rfl)]
    exact h3
  | false =>
    by_cases hC : q.hasNewData = true ∨ q.memoryQueue.length < q.minInMemory
    · have hWi := hW rfl
      have hsh := umq_shape q false q.memoryQueue rfl hC hWi.winLe
      have hm := refill_master q (q.updateMemoryQueue false) hP q.memoryQueue
        _ hsh hWi.window hWi.winLe hWi.winHigh
        (fun p hp s hs => lt_of_le_of_lt (hWi.winHigh p hp) (hWi.dropHigh s hs))
        (by
          intro s hs
          show ¬ q.highestId < s.1
          exact not_lt.mpr (hWi.winHigh _
            (by rw [hWi.window]; exact List.mem_map_of_mem _ hs)))
        (fun s hs => show q.highestId < s.1 from hWi.dropHigh s hs)
        (fun _ => hWi.dropHigh)
      obtain ⟨h1, h2, h3, h4, h5, h6, h7, h8, h9⟩ := hm
      refine ⟨h4, h5, h6, h7, h8, h9, h1, h2, ?_⟩
      rw [if_pos (Or.inr hC)]
      exact h3
    · rw [umq_norefill q hC]
      have hWi := hW rfl
      refine ⟨rfl, rfl, rfl, rfl, rfl, rfl,
        ⟨hP.wfMin, hP.wfMax, hP.sorted, hP.keysU, hP.idsPos, hP.idsLt,
          hP.nextPos, hP.sizeEq, hP.highLt⟩,
        ⟨hWi.window, hWi.winLe, hWi.winHigh, hWi.dropHigh, hWi.lowLe⟩, ?_⟩
      rw [if_neg]
      intro h
      rcases h with h | h
      · cases h
      · exact hC h

end Fileconveyor

namespace Fileconveyor
variable {α : Type} {κ : Type} [DecidableEq κ]

theorem win_len_le_table (q : PQ α κ) (hW : WinInv q) :
    q.memoryQueue.length ≤ q.table.length := by
  have h := congrArg List.length hW.window
  rw [List.length_map, List.length_take] at h
  omega

theorem filter_ne_head (hd : Int × α × κ) (tl : List (Int × α × κ))
    (hs : (hd :: tl).Pairwise (fun a b => a.1 < b.1)) :
    (hd :: tl).filter (fun r => decide (¬ r.1 = hd.1)) = tl := by
  rw [List.filter_cons]
  have h0 : (decide (¬ hd.1 = hd.1)) = false := by simp
  rw [h0]
  simp only [Bool.false_eq_true, if_false]
  apply List.filter_eq_self.mpr
  intro y hy
  have := (List.pairwise_cons.mp hs).1 y hy
  simp only [decide_eq_true_eq]
  omega

/-- `put` with a fresh key hash: success, the row is appended at the tail
with the next id, size grows by one, the window is untouched, and the
invariant is preserved. -/
theorem put_spec (q : PQ α κ) (i : α) (k : κ) (hI : Inv q)
    (hfresh : ∀ r ∈ q.table, ¬ r.2.2 = k) :
    (q.put i k).1 = .ok () ∧
    (q.put i k).2.table = q.table ++ [(q.nextId, i, k)] ∧
    (q.put i k).2.size = q.size + 1 ∧
    (q.put i k).2.memoryQueue = q.memoryQueue ∧
    Inv (q.put i k).2 := by
  obtain ⟨hP, hW⟩ := hI
  have hany : q.table.any (fun r => decide (r.2.2 = k)) = false := by
    rw [List.any_eq_false]
    intro r hr
    simpa using hfresh r hr
  have hput : q.put i k = (.ok (),
      { q with table := q.table ++ [(q.nextId, i, k)],
               nextId := q.nextId + 1,
               size := q.size + 1,
               hasNewData := true }) := by
    unfold PQ.put
    rw [hany]
    simp
  rw [hput]
  dsimp only
  have hnt := win_len_le_table q hW
  refine ⟨rfl, rfl, rfl, rfl,
    ⟨hP.wfMin, hP.wfMax, ?_, ?_, ?_, ?_, ?_, ?_, ?_⟩,
    ⟨?_, hW.winLe, hW.winHigh, ?_, hW.lowLe⟩⟩
  · -- sorted
    apply List.pairwise_append.mpr
    refine ⟨hP.sorted, List.pairwise_singleton _ _, ?_⟩
    intro a ha b hb
    rw [List.mem_singleton] at hb
    rw [hb]
    exact hP.idsLt a ha
  · -- keysU
    apply List.pairwise_append.mpr
    refine ⟨hP.keysU, List.pairwise_singleton _ _, ?_⟩
    intro a ha b hb
    rw [List.mem_singleton] at hb
    rw [hb]
    intro hc
    exact hfresh a ha hc
  · -- idsPos
    intro r hr
    rcases List.mem_append.mp hr with h | h
    · exact hP.idsPos r h
    · rw [List.mem_singleton] at h
      rw [h]
      exact hP.nextPos
  · -- idsLt
    intro r hr
    show r.1 < q.nextId + 1
    rcases List.mem_append.mp hr with h | h
    · have := hP.idsLt r h
      omega
    · rw [List.mem_singleton] at h
      rw [h]
      omega
  · -- nextPos
    show (1 : Int) ≤ q.nextId + 1
    have := hP.nextPos
    omega
  · -- sizeEq
    rw [hP.sizeEq, List.length_append, List.length_cons, List.length_nil]
    push_cast
    ring
  · -- highLt
    show q.highestId < q.nextId + 1
    have := hP.highLt
    omega
  · -- window
    rw [List.take_append_of_le_length hnt]
    exact hW.window
  · -- dropHigh
    intro r hr
    rw [List.drop_append_of_le_length hnt] at hr
    rcases List.mem_append.mp hr with h | h
    · exact hW.dropHigh r h
    · rw [List.mem_singleton] at h
      rw [h]
      exact hP.highLt

/-- `put` with an existing key hash: `AlreadyExists` and the state is
returned unchanged (the INSERT is never committed). -/
theorem put_dup (q : PQ α κ) (i : α) (k : κ)
    (hex : ∃ r ∈ q.table, r.2.2 = k) :
    q.put i k = (.error .alreadyExists, q) := by
  unfold PQ.put
  obtain ⟨r, hr, hk⟩ := hex
  rw [if_pos (List.any_eq_true.mpr ⟨r, hr, by simpa using hk⟩)]

end Fileconveyor

namespace Fileconveyor
variable {α : Type} {κ : Type} [DecidableEq κ]

/-- `get` on a non-empty invariant queue: it returns the item of the head
row of the table (the lowest id), deletes exactly that row, decrements
`size`, and preserves the invariant. -/
theorem get_spec (q : PQ α κ) (hI : Inv q) (hne : q.table ≠ []) :
    ∃ hd tl, q.table = hd :: tl ∧
      q.get.1 = .ok hd.2.1 ∧
      q.get.2.table = tl ∧
      q.get.2.size = q.size - 1 ∧
      q.get.2.nextId = q.nextId ∧
      q.get.2.maxInMemory = q.maxInMemory ∧
      q.get.2.minInMemory = q.minInMemory ∧
      Inv q.get.2 := by
  obtain ⟨hP, hW⟩ := hI
  obtain ⟨h1, h2, h3, h4, h5, h6, h7, h8, h9⟩ :=
    umq_spec q false hP (fun _ => hW)
  cases ht : q.table with
  | nil => exact absurd ht hne
  | cons hd tl =>
  have hlenpos : 0 < q.table.length := by rw [ht]; simp
  have hsz : ¬ q.size = 0 := by
    rw [hP.sizeEq]
    intro hc
    have : q.table.length = 0 := by exact_mod_cast hc
    omega
  have hm1 : 1 ≤ q.maxInMemory := le_trans hP.wfMin hP.wfMax
  have hL1 : 1 ≤ (q.updateMemoryQueue false).memoryQueue.length := by
    rw [h9]
    by_cases hC : (false = true ∨ q.hasNewData = true ∨
        q.memoryQueue.length < q.minInMemory)
    · rw [if_pos hC]
      omega
    · rw [if_neg hC]
      push_neg at hC
      have := hC.2.2
      have := hP.wfMin
      omega
  have hwin1 := h8.window
  rw [h1, ht] at hwin1
  obtain ⟨L', hL'⟩ : ∃ L',
      (q.updateMemoryQueue false).memoryQueue.length = L' + 1 :=
    ⟨(q.updateMemoryQueue false).memoryQueue.length - 1, by omega⟩
  have hmq : (q.updateMemoryQueue false).memoryQueue
      = (hd.1, hd.2.1) :: (tl.take L').map (fun r => (r.1, r.2.1)) := by
    rw [hwin1, hL', List.take_succ_cons, List.map_cons]
  have hlt : (q.updateMemoryQueue false).memoryQueue.length ≤ q.table.length := by
    have h := win_len_le_table _ h8
    rw [h1] at h
    exact h
  have hL'le : L' ≤ tl.length := by
    rw [ht] at hlt
    simp only [List.length_cons] at hlt
    omega
  have hsorted : (hd :: tl).Pairwise (fun a b : Int × α × κ => a.1 < b.1) :=
    ht ▸ hP.sorted
  have hfil : (q.updateMemoryQueue false).table.filter
      (fun r => decide (¬ r.1 = hd.1)) = tl := by
    rw [h1, ht]
    exact filter_ne_head hd tl hsorted
  have hget : q.get = (.ok hd.2.1,
      { q.updateMemoryQueue false with
          memoryQueue := (tl.take L').map (fun r => (r.1, r.2.1)),
          table := (q.updateMemoryQueue false).table.filter
            (fun r => decide (¬ r.1 = hd.1)),
          size := (q.updateMemoryQueue false).size - 1 }) := by
    simp only [PQ.get]
    rw [if_neg hsz, hmq]
  have hrestlen : ((tl.take L').map
      (fun r : Int × α × κ => (r.1, r.2.1))).length = L' := by
    rw [List.length_map, List.length_take]
    omega
  refine ⟨hd, tl, rfl, ?_, ?_, ?_, ?_, ?_, ?_, ?_⟩
  · rw [hget]
  · rw [hget]
    exact hfil
  · rw [hget]
    show (q.updateMemoryQueue false).size - 1 = q.size - 1
    rw [h2]
  · rw [hget]
    exact h3
  · rw [hget]
    exact h4
  · rw [hget]
    exact h5
  · rw [hget]
    refine ⟨⟨?_, ?_, ?_, ?_, ?_, ?_, ?_, ?_, ?_⟩, ⟨?_, ?_, ?_, ?_, ?_⟩⟩
    · show 1 ≤ (q.updateMemoryQueue false).minInMemory
      rw [h5]
      exact hP.wfMin
    · show (q.updateMemoryQueue false).minInMemory ≤
        (q.updateMemoryQueue false).maxInMemory
      rw [h4, h5]
      exact hP.wfMax
    · show List.Pairwise _ ((q.updateMemoryQueue false).table.filter _)
      rw [hfil]
      exact (List.pairwise_cons.mp hsorted).2
    · show List.Pairwise _ ((q.updateMemoryQueue false).table.filter _)
      rw [hfil]
      exact (List.pairwise_cons.mp (ht ▸ hP.keysU)).2
    · intro r hr
      rw [hfil] at hr
      exact hP.idsPos r (ht ▸ List.mem_cons_of_mem hd hr)
    · intro r hr
      rw [hfil] at hr
      show r.1 < (q.updateMemoryQueue false).nextId
      rw [h3]
      exact hP.idsLt r (ht ▸ List.mem_cons_of_mem hd hr)
    · show (1 : Int) ≤ (q.updateMemoryQueue false).nextId
      rw [h3]
      exact hP.nextPos
    · show (q.updateMemoryQueue false).size - 1 = _
      rw [h2, hP.sizeEq, hfil, ht, List.length_cons]
      push_cast
      ring
    · show (q.updateMemoryQueue false).highestId <
        (q.updateMemoryQueue false).nextId
      exact h7.highLt
    · -- window
      show (tl.take L').map _ = (((q.updateMemoryQueue false).table.filter _).take
        ((tl.take L').map _).length).map _
      rw [hfil, hrestlen]
    · -- winLe
      show ((tl.take L').map _).length ≤ (q.updateMemoryQueue false).maxInMemory
      have := h8.winLe
      rw [hL'] at this
      rw [hrestlen]
      omega
    · -- winHigh
      intro p hp
      apply h8.winHigh
      rw [hmq]
      exact List.mem_cons_of_mem _ hp
    · -- dropHigh
      intro r hr
      rw [hfil, hrestlen] at hr
      have hr2 : r ∈ (q.updateMemoryQueue false).table.drop
          (q.updateMemoryQueue false).memoryQueue.length := by
        rw [h1, ht, hL', List.drop_succ_cons]
        exact hr
      exact h8.dropHigh r hr2
    · -- lowLe
      intro p hp
      apply h8.lowLe
      rw [hmq]
      exact List.mem_cons_of_mem _ hp

end Fileconveyor

namespace Fileconveyor
variable {α : Type} {κ : Type} [DecidableEq κ]

/-- `peek` on a non-empty invariant queue: it returns the item of the head
row of the table without mutating anything beyond the window refill. -/
theorem peek_spec (q : PQ α κ) (hI : Inv q) (hne : q.table ≠ []) :
    ∃ hd tl, q.table = hd :: tl ∧
      q.peek.1 = .ok hd.2.1 ∧
      q.peek.2 = q.updateMemoryQueue false ∧
      q.peek.2.table = q.table ∧
      q.peek.2.size = q.size ∧
      Inv q.peek.2 := by
  obtain ⟨hP, hW⟩ := hI
  obtain ⟨h1, h2, h3, h4, h5, h6, h7, h8, h9⟩ :=
    umq_spec q false hP (fun _ => hW)
  cases ht : q.table with
  | nil => exact absurd ht hne
  | cons hd tl =>
  have hlenpos : 0 < q.table.length := by rw [ht]; simp
  have hsz : ¬ q.size = 0 := by
    rw [hP.sizeEq]
    intro hc
    have : q.table.length = 0 := by exact_mod_cast hc
    omega
  have hm1 : 1 ≤ q.maxInMemory := le_trans hP.wfMin hP.wfMax
  have hL1 : 1 ≤ (q.updateMemoryQueue false).memoryQueue.length := by
    rw [h9]
    by_cases hC : (false = true ∨ q.hasNewData = true ∨
        q.memoryQueue.length < q.minInMemory)
    · rw [if_pos hC]
      omega
    · rw [if_neg hC]
      push_neg at hC
      have := hC.2.2
      have := hP.wfMin
      omega
  have hwin1 := h8.window
  rw [h1, ht] at hwin1
  obtain ⟨L', hL'⟩ : ∃ L',
      (q.updateMemoryQueue false).memoryQueue.length = L' + 1 :=
    ⟨(q.updateMemoryQueue false).memoryQueue.length - 1, by omega⟩
  have hmq : (q.updateMemoryQueue false).memoryQueue
      = (hd.1, hd.2.1) :: (tl.take L').map (fun r => (r.1, r.2.1)) := by
    rw [hwin1, hL', List.take_succ_cons, List.map_cons]
  have hpeek : q.peek = (.ok hd.2.1, q.updateMemoryQueue false) := by
    simp only [PQ.peek]
    rw [if_neg hsz, hmq]
    rfl
  refine ⟨hd, tl, rfl, ?_, ?_, ?_, ?_, ?_⟩
  · rw [hpeek]
  · rw [hpeek]
  · rw [hpeek]
    exact h1.trans ht
  · rw [hpeek]
    exact h2
  · rw [hpeek]
    exact ⟨h7, h8⟩

theorem key_inj {t : List (Int × α × κ)}
    (hu : t.Pairwise (fun a b => a.2.2 ≠ b.2.2))
    {s r : Int × α × κ} (hs : s ∈ t) (hr : r ∈ t) (h : s.2.2 = r.2.2) :
    s = r := by
  induction t with
  | nil => cases hs
  | cons a u ih =>
    rcases List.mem_cons.mp hs with rfl | hs' <;>
      rcases List.mem_cons.mp hr with rfl | hr'
    · rfl
    · exact absurd h ((List.pairwise_cons.mp hu).1 r hr')
    · exact absurd h.symm ((List.pairwise_cons.mp hu).1 s hs')
    · exact ih (List.pairwise_cons.mp hu).2 hs' hr'

/-- When the row found for a mutation lies outside
`[lowest_id_in_queue, highest_id_in_queue]`, it lies strictly beyond the
window: every window row keeps a smaller id. -/
theorem out_of_window (q : PQ α κ) (hP : PreInv q) (hW : WinInv q)
    {r0 : Int × α × κ} (hr0 : r0 ∈ q.table)
    (hout : ¬ (q.lowestId ≤ r0.1 ∧ r0.1 ≤ q.highestId)) :
    q.highestId < r0.1 := by
  cases hmq0 : q.memoryQueue with
  | nil =>
    have hdrop := hW.dropHigh
    rw [hmq0] at hdrop
    simp only [List.length_nil, List.drop_zero] at hdrop
    exact hdrop r0 hr0
  | cons p0 w =>
    have hwin := hW.window
    rw [hmq0] at hwin
    cases hts : q.table with
    | nil =>
      rw [hts] at hr0
      cases hr0
    | cons s0 t' =>
      rw [hts, List.length_cons, List.take_succ_cons, List.map_cons] at hwin
      have hp0 : p0 = (s0.1, s0.2.1) := by
        have := congrArg List.head? hwin
        simpa using this
      have hlow0 : q.lowestId ≤ p0.1 := hW.lowLe p0 (by rw [hmq0]; exact List.mem_cons_self _ _)
      have hlow : q.lowestId ≤ r0.1 := by
        rw [hts] at hr0
        rcases List.mem_cons.mp hr0 with rfl | hr'
        · rw [hp0] at hlow0
          exact hlow0
        · have hsorted := hP.sorted
          rw [hts] at hsorted
          have := (List.pairwise_cons.mp hsorted).1 r0 hr'
          rw [hp0] at hlow0
          have hfs : s0.1 ≤ r0.1 := le_of_lt this
          exact le_trans hlow0 hfs
      rcases not_and_or.mp hout with h | h
      · exact absurd hlow h
      · exact not_le.mp h

theorem filter_key_ne_split (A B : List (Int × α × κ)) (r0 : Int × α × κ)
    (k : κ) (hk : r0.2.2 = k)
    (hA : ∀ s ∈ A, ¬ s.2.2 = k) (hB : ∀ s ∈ B, ¬ s.2.2 = k) :
    (A ++ r0 :: B).filter (fun s => decide (¬ s.2.2 = k)) = A ++ B := by
  rw [List.filter_append, List.filter_cons,
    List.filter_eq_self.mpr (by simpa using hA),
    List.filter_eq_self.mpr (by simpa using hB)]
  simp [hk]

/-- Rebuild the window half of the invariant after an out-of-window table
mutation: the table front below the window is unchanged and everything
beyond the window still has id above `highest_id_in_queue`. -/
theorem wininv_table_front (q q1 : PQ α κ) (hW : WinInv q)
    (hmq : q1.memoryQueue = q.memoryQueue)
    (hlow : q1.lowestId = q.lowestId) (hhigh : q1.highestId = q.highestId)
    (hmax : q1.maxInMemory = q.maxInMemory)
    (hfront : q1.table.take q.memoryQueue.length
      = q.table.take q.memoryQueue.length)
    (hdropids : ∀ r ∈ q1.table.drop q.memoryQueue.length, q.highestId < r.1) :
    WinInv q1 := by
  refine ⟨?_, ?_, ?_, ?_, ?_⟩
  · rw [hmq, hfront]
    exact hW.window
  · rw [hmq, hmax]
    exact hW.winLe
  · intro p hp
    rw [hhigh]
    exact hW.winHigh p (hmq ▸ hp)
  · intro r hr
    rw [hhigh]
    exact hdropids r (by rw [hmq] at hr; exact hr)
  · intro p hp
    rw [hlow]
    exact hW.lowLe p (hmq ▸ hp)

end Fileconveyor

namespace Fileconveyor
variable {α : Type} {κ : Type} [DecidableEq κ]

/-- `remove_item_for_key` with no row for the key hash: complete no-op. -/
theorem remove_absent (q : PQ α κ) (k : κ)
    (h : ∀ r ∈ q.table, ¬ r.2.2 = k) :
    q.remove_item_for_key k = q := by
  unfold PQ.remove_item_for_key
  rw [filter_key_absent h]
  rfl

/-- `update` with no row for the key hash: error, state unchanged. -/
theorem update_absent (q : PQ α κ) (i : α) (k : κ)
    (h : ∀ r ∈ q.table, ¬ r.2.2 = k) :
    q.update i k = (.error .updateForNonExistingKey, q) := by
  unfold PQ.update
  rw [filter_key_absent h]
  rfl

/-- `remove_item_for_key` with a present key hash: exactly that row is
deleted, `size` drops by one, and the invariant is preserved. -/
theorem remove_spec (q : PQ α κ) (k : κ) (hI : Inv q) {r0 : Int × α × κ}
    (hr0 : r0 ∈ q.table) (hk : r0.2.2 = k) :
    (q.remove_item_for_key k).table
      = q.table.filter (fun s => decide (¬ s.2.2 = k)) ∧
    (q.remove_item_for_key k).size = q.size - 1 ∧
    (q.remove_item_for_key k).nextId = q.nextId ∧
    (q.remove_item_for_key k).maxInMemory = q.maxInMemory ∧
    (q.remove_item_for_key k).minInMemory = q.minInMemory ∧
    Inv (q.remove_item_for_key k) := by
  obtain ⟨hP, hW⟩ := hI
  have hfs := filter_key_singleton hP.keysU hr0 hk
  have hshape : q.remove_item_for_key k =
      (if q.lowestId ≤ r0.1 ∧ r0.1 ≤ q.highestId then
        PQ.updateMemoryQueue
          { q with table := q.table.filter (fun s => decide (¬ s.2.2 = k)),
                   size := q.size - 1 } true
      else
        { q with table := q.table.filter (fun s => decide (¬ s.2.2 = k)),
                 size := q.size - 1 }) := by
    unfold PQ.remove_item_for_key
    rw [hfs]
    rfl
  obtain ⟨A, B, hsplit, hA, hB⟩ := key_split hP.keysU hr0 hk
  have hq1t : q.table.filter (fun s => decide (¬ s.2.2 = k)) = A ++ B := by
    conv_lhs => rw [hsplit]
    exact filter_key_ne_split A B r0 k hk hA hB
  have hlens : q.table.length = A.length + B.length + 1 := by
    rw [hsplit, List.length_append, List.length_cons]
    omega
  have hP1 : PreInv { q with
      table := q.table.filter (fun s => decide (¬ s.2.2 = k)),
      size := q.size - 1 } := by
    refine ⟨hP.wfMin, hP.wfMax, ?_, ?_, ?_, ?_, hP.nextPos, ?_, hP.highLt⟩
    · exact List.Pairwise.sublist (List.filter_sublist _) hP.sorted
    · exact List.Pairwise.sublist (List.filter_sublist _) hP.keysU
    · intro r hr
      exact hP.idsPos r ((List.filter_sublist _).subset hr)
    · intro r hr
      exact hP.idsLt r ((List.filter_sublist _).subset hr)
    · show q.size - 1 = _
      rw [hq1t, hP.sizeEq, hlens, List.length_append]
      push_cast
      ring
  rw [hshape]
  by_cases hin : q.lowestId ≤ r0.1 ∧ r0.1 ≤ q.highestId
  · rw [if_pos hin]
    obtain ⟨g1, g2, g3, g4, g5, g6, g7, g8, g9⟩ :=
      umq_spec _ true hP1 (fun h => absurd h (by simp))
    exact ⟨g1, g2, g3, g4, g5, ⟨g7, g8⟩⟩
  · rw [if_neg hin]
    have hout := out_of_window q hP hW hr0 hin
    have hlenle := win_len_le_table q hW
    have hfrontkeys : ∀ s ∈ q.table.take q.memoryQueue.length,
        ¬ s.2.2 = k := by
      intro s hs hkey
      have hsmem : s ∈ q.table := (List.take_sublist _ _).subset hs
      have hse : s = r0 := key_inj hP.keysU hsmem hr0 (by rw [hkey, hk])
      have hsp : (s.1, s.2.1) ∈ q.memoryQueue := by
        rw [hW.window]
        exact List.mem_map_of_mem _ hs
      have hle : s.1 ≤ q.highestId := hW.winHigh _ hsp
      rw [hse] at hle
      omega
    have hfront : (q.table.filter (fun s => decide (¬ s.2.2 = k))).take
        q.memoryQueue.length = q.table.take q.memoryQueue.length := by
      conv_lhs => rw [← List.take_append_drop q.memoryQueue.length q.table]
      rw [List.filter_append,
        List.filter_eq_self.mpr (by simpa using hfrontkeys),
        List.take_append_of_le_length (by rw [List.length_take]; omega),
        List.take_take]
      simp
    have hdropeq : (q.table.filter (fun s => decide (¬ s.2.2 = k))).drop
        q.memoryQueue.length
        = (q.table.drop q.memoryQueue.length).filter
            (fun s => decide (¬ s.2.2 = k)) := by
      conv_lhs => rw [← List.take_append_drop q.memoryQueue.length q.table]
      rw [List.filter_append,
        List.filter_eq_self.mpr (by simpa using hfrontkeys),
        List.drop_append_of_le_length (by rw [List.length_take]; omega)]
      rw [show (q.table.take q.memoryQueue.length).drop q.memoryQueue.length
          = [] from by
        apply List.drop_eq_nil_of_le
        rw [List.length_take]
        omega]
      rw [List.nil_append]
    have hdropids : ∀ r ∈ (q.table.filter
        (fun s => decide (¬ s.2.2 = k))).drop q.memoryQueue.length,
        q.highestId < r.1 := by
      intro r hr
      rw [hdropeq] at hr
      exact hW.dropHigh r ((List.filter_sublist _).subset hr)
    refine ⟨rfl, rfl, rfl, rfl, rfl, hP1, ?_⟩
    exact wininv_table_front q _ hW rfl rfl rfl rfl hfront hdropids

/-- `update` with a present key hash: success, the payload of exactly that
row is replaced in place (ids, keys and order untouched), size is
unchanged, and the invariant is preserved. -/
theorem update_spec (q : PQ α κ) (i : α) (k : κ) (hI : Inv q)
    {r0 : Int × α × κ} (hr0 : r0 ∈ q.table) (hk : r0.2.2 = k) :
    (q.update i k).1 = .ok () ∧
    (q.update i k).2.table
      = q.table.map (fun s => if s.2.2 = k then (s.1, i, s.2.2) else s) ∧
    (q.update i k).2.size = q.size ∧
    (q.update i k).2.nextId = q.nextId ∧
    (q.update i k).2.maxInMemory = q.maxInMemory ∧
    (q.update i k).2.minInMemory = q.minInMemory ∧
    Inv (q.update i k).2 := by
  obtain ⟨hP, hW⟩ := hI
  have hfs := filter_key_singleton hP.keysU hr0 hk
  have hshape : q.update i k =
      (if q.lowestId ≤ r0.1 ∧ r0.1 ≤ q.highestId then
        (.ok (), PQ.updateMemoryQueue
          { q with table := List.map (fun s => if s.2.2 = k then (s.1, i, s.2.2) else s) q.table } true)
      else
        (.ok (), { q with table := List.map (fun s => if s.2.2 = k then (s.1, i, s.2.2) else s) q.table })) := by
    unfold PQ.update
    rw [hfs]
    rfl
  have hrepl1 : ∀ s : Int × α × κ,
      ((if s.2.2 = k then (s.1, i, s.2.2) else s) : Int × α × κ).1 = s.1 := by
    intro s
    split <;> rfl
  have hrepl2 : ∀ s : Int × α × κ,
      ((if s.2.2 = k then (s.1, i, s.2.2) else s) : Int × α × κ).2.2 = s.2.2 := by
    intro s
    split <;> rfl
  have hP1 : PreInv { q with table := List.map (fun s => if s.2.2 = k then (s.1, i, s.2.2) else s) q.table } := by
    refine ⟨hP.wfMin, hP.wfMax, ?_, ?_, ?_, ?_, hP.nextPos, ?_, hP.highLt⟩
    · exact List.pairwise_map.mpr (hP.sorted.imp
        (fun {a b} h => by rw [hrepl1 a, hrepl1 b]; exact h))
    · exact List.pairwise_map.mpr (hP.keysU.imp
        (fun {a b} h => by rw [hrepl2 a, hrepl2 b]; exact h))
    · intro r hr
      obtain ⟨s, hs, rfl⟩ := List.mem_map.mp hr
      rw [hrepl1]
      exact hP.idsPos s hs
    · intro r hr
      obtain ⟨s, hs, rfl⟩ := List.mem_map.mp hr
      show _ < q.nextId
      rw [hrepl1]
      exact hP.idsLt s hs
    · show q.size = _
      rw [List.length_map]
      exact hP.sizeEq
  rw [hshape]
  by_cases hin : q.lowestId ≤ r0.1 ∧ r0.1 ≤ q.highestId
  · rw [if_pos hin]
    obtain ⟨g1, g2, g3, g4, g5, g6, g7, g8, g9⟩ :=
      umq_spec _ true hP1 (fun h => absurd h (by simp))
    exact ⟨rfl, g1, g2, g3, g4, g5, ⟨g7, g8⟩⟩
  · rw [if_neg hin]
    have hout := out_of_window q hP hW hr0 hin
    have hlenle := win_len_le_table q hW
    have hfrontkeys : ∀ s ∈ q.table.take q.memoryQueue.length,
        ¬ s.2.2 = k := by
      intro s hs hkey
      have hsmem : s ∈ q.table := (List.take_sublist _ _).subset hs
      have hse : s = r0 := key_inj hP.keysU hsmem hr0 (by rw [hkey, hk])
      have hsp : (s.1, s.2.1) ∈ q.memoryQueue := by
        rw [hW.window]
        exact List.mem_map_of_mem _ hs
      have hle : s.1 ≤ q.highestId := hW.winHigh _ hsp
      rw [hse] at hle
      omega
    have hfront : (q.table.map
        (fun s => if s.2.2 = k then (s.1, i, s.2.2) else s)).take
          q.memoryQueue.length = q.table.take q.memoryQueue.length := by
      rw [← List.map_take]
      apply map_eq_self_of_mem
      intro s hs
      exact if_neg (hfrontkeys s hs)
    have hdropids : ∀ r ∈ (q.table.map
        (fun s => if s.2.2 = k then (s.1, i, s.2.2) else s)).drop
          q.memoryQueue.length, q.highestId < r.1 := by
      intro r hr
      rw [← List.map_drop] at hr
      obtain ⟨s, hs, rfl⟩ := List.mem_map.mp hr
      rw [hrepl1]
      exact hW.dropHigh s hs
    refine ⟨rfl, rfl, rfl, rfl, rfl, rfl, hP1, ?_⟩
    exact wininv_table_front q _ hW rfl rfl rfl rfl hfront hdropids

/-- Every reachable queue state satisfies the invariant. -/
theorem reach_inv (q : PQ α κ) (h : Reachable q) : Inv q := by
  induction h with
  | init maxI minI h1 h2 =>
    refine ⟨⟨h1, h2, ?_, ?_, ?_, ?_, ?_, ?_, ?_⟩, ⟨?_, ?_, ?_, ?_, ?_⟩⟩ <;>
      simp [PQ.new]
  | putR q i kk hq ih =>
    by_cases hex : ∃ r ∈ q.table, r.2.2 = kk
    · rw [put_dup q i kk hex]
      exact ih
    · push_neg at hex
      exact (put_spec q i kk ih (by simpa using hex)).2.2.2.2
  | getR q hq ih =>
    by_cases hsz : q.size = 0
    · have he : q.get = (.error .empty, q) := by
        unfold PQ.get
        rw [if_pos hsz]
      rw [he]
      exact ih
    · have hne : q.table ≠ [] := by
        intro hc
        apply hsz
        rw [ih.1.sizeEq, hc]
        simp
      obtain ⟨hd, tl, ht, g1, g2, g3, g4, g5, g6, g7⟩ := get_spec q ih hne
      exact g7
  | peekR q hq ih =>
    by_cases hsz : q.size = 0
    · have he : q.peek = (.error .empty, q) := by
        unfold PQ.peek
        rw [if_pos hsz]
      rw [he]
      exact ih
    · have hne : q.table ≠ [] := by
        intro hc
        apply hsz
        rw [ih.1.sizeEq, hc]
        simp
      obtain ⟨hd, tl, ht, g1, g2, g3, g4, g5⟩ := peek_spec q ih hne
      exact g5
  | updateR q i kk hq ih =>
    by_cases hex : ∃ r ∈ q.table, r.2.2 = kk
    · obtain ⟨r0, hr0, hk⟩ := hex
      exact (update_spec q i kk ih hr0 hk).2.2.2.2.2.2
    · push_neg at hex
      rw [update_absent q i kk (by simpa using hex)]
      exact ih
  | removeR q kk hq ih =>
    by_cases hex : ∃ r ∈ q.table, r.2.2 = kk
    · obtain ⟨r0, hr0, hk⟩ := hex
      exact (remove_spec q kk ih hr0 hk).2.2.2.2.2
    · push_neg at hex
      rw [remove_absent q kk (by simpa using hex)]
      exact ih

end Fileconveyor

namespace Fileconveyor
variable {α : Type} {κ : Type} [DecidableEq κ]

/-- Driving a sequence of `put`s with pairwise-distinct fresh keys:
all succeed and the items/keys land at the tail of the table in order. -/
theorem putAll_spec (xs : List (α × κ)) : ∀ (q : PQ α κ), Inv q →
    ((xs.map Prod.snd).Pairwise (fun a b => a ≠ b)) →
    (∀ p ∈ xs, ∀ r ∈ q.table, ¬ r.2.2 = p.2) →
    (putAll q xs).1 = .ok () ∧
    Inv (putAll q xs).2 ∧
    (putAll q xs).2.table.map (fun r => (r.2.1, r.2.2))
      = q.table.map (fun r => (r.2.1, r.2.2)) ++ xs := by
  induction xs with
  | nil =>
    intro q hI _ _
    exact ⟨rfl, hI, by simp [putAll]⟩
  | cons p rest ih =>
    intro q hI hdist hfresh
    obtain ⟨g1, g2, g3, g4, g5⟩ := put_spec q p.1 p.2 hI
      (fun r hr => hfresh p (List.mem_cons_self _ _) r hr)
    have hpair : q.put p.1 p.2 = (Except.ok (), (q.put p.1 p.2).2) := by
      rw [← g1]
    have hred : putAll q (p :: rest) = putAll (q.put p.1 p.2).2 rest := by
      simp only [putAll]
      rw [hpair]
    have hdist' : ((rest.map Prod.snd).Pairwise (fun a b => a ≠ b)) := by
      have := hdist
      rw [List.map_cons, List.pairwise_cons] at this
      exact this.2
    have hfresh' : ∀ p' ∈ rest, ∀ r ∈ (q.put p.1 p.2).2.table,
        ¬ r.2.2 = p'.2 := by
      intro p' hp' r hr
      rw [g2] at hr
      rcases List.mem_append.mp hr with h | h
      · exact hfresh p' (List.mem_cons_of_mem _ hp') r h
      · rw [List.mem_singleton] at h
        rw [h]
        have hkd := hdist
        rw [List.map_cons, List.pairwise_cons] at hkd
        have := hkd.1 p'.2 (List.mem_map_of_mem _ hp')
        intro hc
        exact this hc
    obtain ⟨j1, j2, j3⟩ := ih (q.put p.1 p.2).2 g5 hdist' hfresh'
    refine ⟨by rw [hred]; exact j1, by rw [hred]; exact j2, ?_⟩
    rw [hred, j3, g2, List.map_append]
    simp

/-- Draining `n` items from an invariant queue with at least `n` rows:
the returned items are those of the first `n` table rows, in order. -/
theorem getAll_spec : ∀ (n : Nat) (q : PQ α κ), Inv q → n ≤ q.table.length →
    (getAll q n).1 = .ok ((q.table.take n).map (fun r => r.2.1)) ∧
    Inv (getAll q n).2 := by
  intro n
  induction n with
  | zero =>
    intro q hI _
    exact ⟨by simp [getAll], hI⟩
  | succ n ih =>
    intro q hI hle
    have hne : q.table ≠ [] := by
      intro hc
      rw [hc] at hle
      simp at hle
    obtain ⟨hd, tl, ht, g1, g2, g3, g4, g5, g6, g7⟩ := get_spec q hI hne
    obtain ⟨qg, hqg⟩ : ∃ qg, q.get = (Except.ok hd.2.1, qg) :=
      ⟨q.get.2, by rw [← g1]⟩
    have hqg2 : q.get.2 = qg := by rw [hqg]
    rw [hqg2] at g2 g7
    have hlen' : n ≤ qg.table.length := by
      rw [g2]
      rw [ht, List.length_cons] at hle
      omega
    obtain ⟨j1, j2⟩ := ih qg g7 hlen'
    obtain ⟨q2, hq2⟩ : ∃ q2, getAll qg n
        = (Except.ok ((qg.table.take n).map (fun r => r.2.1)), q2) :=
      ⟨(getAll qg n).2, by rw [← j1]⟩
    have hred : getAll q (n + 1)
        = (Except.ok (hd.2.1 :: (qg.table.take n).map (fun r => r.2.1)), q2) := by
      have step : getAll q (n + 1)
          = (match getAll qg n with
             | (.ok xs, qq) => (.ok (hd.2.1 :: xs), qq)
             | (e, qq) => (e, qq)) := by
        simp only [getAll]
        rw [hqg]
      rw [step, hq2]
    refine ⟨?_, ?_⟩
    · rw [hred, g2, ht, List.take_succ_cons, List.map_cons]
    · rw [hred]
      have hq22 : (getAll qg n).2 = q2 := by rw [hq2]
      rw [← hq22]
      exact j2

end Fileconveyor

namespace Fileconveyor
variable {α : Type} {κ : Type} [DecidableEq κ]

theorem ids_inj {t : List (Int × α × κ)}
    (hst : t.Pairwise (fun a b => a.1 < b.1))
    {u v : Int × α × κ} (hu : u ∈ t) (hv : v ∈ t) (h : u.1 = v.1) : u = v := by
  induction t with
  | nil => cases hu
  | cons a w ih =>
    rcases List.mem_cons.mp hu with rfl | hu' <;>
      rcases List.mem_cons.mp hv with rfl | hv'
    · rfl
    · exfalso
      have := (List.pairwise_cons.mp hst).1 v hv'
      omega
    · exfalso
      have := (List.pairwise_cons.mp hst).1 u hu'
      omega
    · exact ih (List.pairwise_cons.mp hst).2 hu' hv'

/-- C1: for every sequence of `put(item_i, key_i)` calls with
pairwise-distinct key hashes on an initially empty queue with well-formed
cache bounds (`1 ≤ min_in_memory ≤ max_in_memory`, as the source's
defaults 100/50 are), followed by the same number of `get()` calls, the
i-th `get()` returns `item_i`: the items come back in insertion order. -/
theorem claim_C1_fifo_order (maxI minI : Nat) (xs : List (α × κ))
    (h1 : 1 ≤ minI) (h2 : minI ≤ maxI)
    (hdist : (xs.map Prod.snd).Pairwise (fun a b => a ≠ b)) :
    (putAll (PQ.new maxI minI : PQ α κ) xs).1 = .ok () ∧
    (getAll (putAll (PQ.new maxI minI : PQ α κ) xs).2 xs.length).1
      = .ok (xs.map Prod.fst) := by
  have hInew : Inv (PQ.new maxI minI : PQ α κ) :=
    reach_inv _ (Reachable.init maxI minI h1 h2)
  obtain ⟨p1, p2, p3⟩ := putAll_spec xs (PQ.new maxI minI) hInew hdist
    (by intro p hp r hr; cases hr)
  have p3' : (putAll (PQ.new maxI minI : PQ α κ) xs).2.table.map
      (fun r => (r.2.1, r.2.2)) = xs := by
    rw [p3]
    rfl
  have hlen : (putAll (PQ.new maxI minI : PQ α κ) xs).2.table.length
      = xs.length := by
    have h := congrArg List.length p3'
    rw [List.length_map] at h
    exact h
  obtain ⟨g1, g2⟩ := getAll_spec xs.length _ p2 (by omega)
  refine ⟨p1, ?_⟩
  rw [g1]
  have htake : (putAll (PQ.new maxI minI : PQ α κ) xs).2.table.take xs.length
      = (putAll (PQ.new maxI minI : PQ α κ) xs).2.table := by
    rw [← hlen, List.take_length]
  rw [htake]
  have hitems := congrArg (List.map Prod.fst) p3'
  rw [List.map_map] at hitems
  rw [← hitems]
  rfl

/-- Closed instance of C1 at a concrete three-element run. -/
theorem claim_C1_fifo_order_witness :
    (putAll (PQ.new 2 1 : PQ Nat Nat) [(10, 100), (20, 200), (30, 300)]).1
      = .ok () ∧
    (getAll (putAll (PQ.new 2 1 : PQ Nat Nat)
        [(10, 100), (20, 200), (30, 300)]).2
      [(10, 100), (20, 200), (30, 300)].length).1
      = .ok ([(10, 100), (20, 200), (30, 300)].map Prod.fst) :=
  claim_C1_fifo_order 2 1 [(10, 100), (20, 200), (30, 300)]
    (by decide) (by decide) (by decide)

/-- C2: on every reachable state `qsize()` equals the number of rows in
durable storage; a successful `put` increases it by 1, a successful
`update` leaves it unchanged, and a successful `get`, or a
`remove_item_for_key` of a present key hash, decreases it by 1. -/
theorem claim_C2_qsize (q : PQ α κ) (i y x : α) (k k3 k2 : κ)
    (hR : Reachable q) :
    q.qsize = (q.table.length : Int) ∧
    ((q.put i k).1 = .ok () → (q.put i k).2.qsize = q.qsize + 1) ∧
    ((q.update y k3).1 = .ok () → (q.update y k3).2.qsize = q.qsize) ∧
    (q.get.1 = .ok x → q.get.2.qsize = q.qsize - 1) ∧
    ((∃ r ∈ q.table, r.2.2 = k2) →
      (q.remove_item_for_key k2).qsize = q.qsize - 1) := by
  have hI := reach_inv q hR
  refine ⟨hI.1.sizeEq, ?_, ?_, ?_, ?_⟩
  · intro hok
    by_cases hex : ∃ r ∈ q.table, r.2.2 = k
    · rw [put_dup q i k hex] at hok
      simp at hok
    · push_neg at hex
      exact (put_spec q i k hI (by simpa using hex)).2.2.1
  · intro hok
    by_cases hex : ∃ r ∈ q.table, r.2.2 = k3
    · obtain ⟨r0, hr0, hk⟩ := hex
      exact (update_spec q y k3 hI hr0 hk).2.2.1
    · push_neg at hex
      rw [update_absent q y k3 (by simpa using hex)] at hok
      simp at hok
  · intro hok
    by_cases hsz : q.size = 0
    · have he : q.get = (.error .empty, q) := by
        unfold PQ.get
        rw [if_pos hsz]
      rw [he] at hok
      simp at hok
    · have hne : q.table ≠ [] := by
        intro hc
        apply hsz
        rw [hI.1.sizeEq, hc]
        simp
      obtain ⟨hd, tl, e1, e2, e3, e4, e5, e6, e7, e8⟩ := get_spec q hI hne
      exact e4
  · intro hex
    obtain ⟨r0, hr0, hk⟩ := hex
    exact (remove_spec q k2 hI hr0 hk).2.1

/-- Closed instance of C2 on the one-element queue `put 5 with key 7`. -/
theorem claim_C2_qsize_witness :
    (PQ.put (PQ.new 2 1 : PQ Nat Nat) 5 7).2.qsize
      = ((PQ.put (PQ.new 2 1 : PQ Nat Nat) 5 7).2.table.length : Int) ∧
    (((PQ.put (PQ.new 2 1 : PQ Nat Nat) 5 7).2.put 6 8).1 = .ok () →
      ((PQ.put (PQ.new 2 1 : PQ Nat Nat) 5 7).2.put 6 8).2.qsize
        = (PQ.put (PQ.new 2 1 : PQ Nat Nat) 5 7).2.qsize + 1) ∧
    (((PQ.put (PQ.new 2 1 : PQ Nat Nat) 5 7).2.update 9 7).1 = .ok () →
      ((PQ.put (PQ.new 2 1 : PQ Nat Nat) 5 7).2.update 9 7).2.qsize
        = (PQ.put (PQ.new 2 1 : PQ Nat Nat) 5 7).2.qsize) ∧
    ((PQ.put (PQ.new 2 1 : PQ Nat Nat) 5 7).2.get.1 = .ok 5 →
      (PQ.put (PQ.new 2 1 : PQ Nat Nat) 5 7).2.get.2.qsize
        = (PQ.put (PQ.new 2 1 : PQ Nat Nat) 5 7).2.qsize - 1) ∧
    ((∃ r ∈ (PQ.put (PQ.new 2 1 : PQ Nat Nat) 5 7).2.table, r.2.2 = 7) →
      ((PQ.put (PQ.new 2 1 : PQ Nat Nat) 5 7).2.remove_item_for_key 7).qsize
        = (PQ.put (PQ.new 2 1 : PQ Nat Nat) 5 7).2.qsize - 1) :=
  claim_C2_qsize (PQ.put (PQ.new 2 1 : PQ Nat Nat) 5 7).2 6 9 5 8 7 7
    (Reachable.putR (PQ.new 2 1) 5 7 (Reachable.init 2 1 (by decide) (by decide)))

end Fileconveyor

namespace Fileconveyor
variable {α : Type} {κ : Type} [DecidableEq κ]

/-- C3: on every reachable state the in-memory window never exceeds
`max_in_memory`, and after any window refill (`__update_memory_queue`,
in either mode) the window length lies in
`[min(size, min_in_memory), min(size, max_in_memory)]` and the window
entries are strictly ascending in monotonic id. -/
theorem claim_C3_window_bounds (q : PQ α κ) (b : Bool) (hR : Reachable q) :
    q.memoryQueue.length ≤ q.maxInMemory ∧
    min (q.updateMemoryQueue b).size (q.minInMemory : Int)
      ≤ ((q.updateMemoryQueue b).memoryQueue.length : Int) ∧
    ((q.updateMemoryQueue b).memoryQueue.length : Int)
      ≤ min (q.updateMemoryQueue b).size (q.maxInMemory : Int) ∧
    (q.updateMemoryQueue b).memoryQueue.Pairwise (fun p r => p.1 < r.1) := by
  have hI := reach_inv q hR
  obtain ⟨h1, h2, h3, h4, h5, h6, h7, h8, h9⟩ :=
    umq_spec q b hI.1 (fun _ => hI.2)
  have hwf1 := hI.1.wfMin
  have hwf2 := hI.1.wfMax
  have hlenle := win_len_le_table q hI.2
  refine ⟨hI.2.winLe, ?_, ?_, ?_⟩
  · rw [h2, hI.1.sizeEq, h9]
    by_cases hC : (b = true ∨ q.hasNewData = true ∨
        q.memoryQueue.length < q.minInMemory)
    · rw [if_pos hC]
      push_cast
      omega
    · rw [if_neg hC]
      push_neg at hC
      have := hC.2.2
      push_cast
      omega
  · rw [h2, hI.1.sizeEq, h9]
    by_cases hC : (b = true ∨ q.hasNewData = true ∨
        q.memoryQueue.length < q.minInMemory)
    · rw [if_pos hC]
      push_cast
      omega
    · rw [if_neg hC]
      have := hI.2.winLe
      push_cast
      omega
  · rw [h8.window]
    apply List.pairwise_map.mpr
    apply List.Pairwise.sublist (List.take_sublist _ _)
    rw [h1]
    exact hI.1.sorted

/-- Closed instance of C3 after `put 5 (key 7)` then `peek`. -/
theorem claim_C3_window_bounds_witness :
    (PQ.peek (PQ.put (PQ.new 2 1 : PQ Nat Nat) 5 7).2).2.memoryQueue.length
      ≤ (PQ.peek (PQ.put (PQ.new 2 1 : PQ Nat Nat) 5 7).2).2.maxInMemory ∧
    min ((PQ.peek (PQ.put (PQ.new 2 1 : PQ Nat Nat) 5 7).2).2.updateMemoryQueue
        false).size
      ((PQ.peek (PQ.put (PQ.new 2 1 : PQ Nat Nat) 5 7).2).2.minInMemory : Int)
      ≤ (((PQ.peek (PQ.put (PQ.new 2 1 : PQ Nat Nat) 5 7).2).2.updateMemoryQueue
        false).memoryQueue.length : Int) ∧
    ((((PQ.peek (PQ.put (PQ.new 2 1 : PQ Nat Nat) 5 7).2).2.updateMemoryQueue
        false).memoryQueue.length : Int))
      ≤ min ((PQ.peek (PQ.put (PQ.new 2 1 : PQ Nat Nat) 5 7).2).2.updateMemoryQueue
          false).size
        ((PQ.peek (PQ.put (PQ.new 2 1 : PQ Nat Nat) 5 7).2).2.maxInMemory : Int) ∧
    ((PQ.peek (PQ.put (PQ.new 2 1 : PQ Nat Nat) 5 7).2).2.updateMemoryQueue
        false).memoryQueue.Pairwise (fun p r => p.1 < r.1) :=
  claim_C3_window_bounds (PQ.peek (PQ.put (PQ.new 2 1 : PQ Nat Nat) 5 7).2).2
    false
    (Reachable.peekR (PQ.put (PQ.new 2 1 : PQ Nat Nat) 5 7).2
      (Reachable.putR (PQ.new 2 1) 5 7
        (Reachable.init 2 1 (by decide) (by decide))))

/-- C4: on an empty queue `get()` and `peek()` raise `Empty` and change
nothing, `qsize()` returns 0 and `empty()` returns true; on a non-empty
queue neither `get()` nor `peek()` raises `Empty`. -/
theorem claim_C4_empty_queue (q : PQ α κ) (hR : Reachable q) :
    (q.table = [] →
      q.get = (.error .empty, q) ∧ q.peek = (.error .empty, q) ∧
      q.qsize = 0 ∧ q.emptyb = true) ∧
    (q.table ≠ [] →
      q.get.1 ≠ .error .empty ∧ q.peek.1 ≠ .error .empty) := by
  have hI := reach_inv q hR
  constructor
  · intro ht
    have hsz : q.size = 0 := by
      rw [hI.1.sizeEq, ht]
      simp
    refine ⟨?_, ?_, hsz, ?_⟩
    · unfold PQ.get
      rw [if_pos hsz]
    · unfold PQ.peek
      rw [if_pos hsz]
    · show decide (q.size = 0) = true
      simp [hsz]
  · intro ht
    constructor
    · obtain ⟨hd, tl, e1, e2, e3, e4, e5, e6, e7, e8⟩ := get_spec q hI ht
      rw [e2]
      simp
    · obtain ⟨hd, tl, e1, e2, e3, e4, e5, e6⟩ := peek_spec q hI ht
      rw [e2]
      simp

/-- Closed instance of C4 on a fresh queue. -/
theorem claim_C4_empty_queue_witness :
    ((PQ.new 2 1 : PQ Nat Nat).table = [] →
      (PQ.new 2 1 : PQ Nat Nat).get = (.error .empty, PQ.new 2 1) ∧
      (PQ.new 2 1 : PQ Nat Nat).peek = (.error .empty, PQ.new 2 1) ∧
      (PQ.new 2 1 : PQ Nat Nat).qsize = 0 ∧
      (PQ.new 2 1 : PQ Nat Nat).emptyb = true) ∧
    ((PQ.new 2 1 : PQ Nat Nat).table ≠ [] →
      (PQ.new 2 1 : PQ Nat Nat).get.1 ≠ .error .empty ∧
      (PQ.new 2 1 : PQ Nat Nat).peek.1 ≠ .error .empty) :=
  claim_C4_empty_queue (PQ.new 2 1)
    (Reachable.init 2 1 (by decide) (by decide))

/-- C5: `put(item, key)` fails with `AlreadyExists` whenever the key hash
already occurs in the queue, and the failure leaves the queue unchanged;
in the spec's concrete scenario (`put x k; put y k`) the size stays 1 and
a subsequent `get` still returns the originally stored `x`. -/
theorem claim_C5_duplicate_put (q : PQ α κ) (x y : α) (k : κ) :
    ((∃ r ∈ q.table, r.2.2 = k) → q.put y k = (.error .alreadyExists, q)) ∧
    (PQ.put (PQ.new 100 50 : PQ α κ) x k).2.qsize = 1 ∧
    (PQ.put (PQ.new 100 50 : PQ α κ) x k).2.put y k
      = (.error .alreadyExists, (PQ.put (PQ.new 100 50 : PQ α κ) x k).2) ∧
    (PQ.put (PQ.new 100 50 : PQ α κ) x k).2.get.1 = .ok x := by
  have hq1 : (PQ.put (PQ.new 100 50 : PQ α κ) x k).2
      = { table := [(1, x, k)], nextId := 2, size := 1, maxInMemory := 100,
          minInMemory := 50, memoryQueue := [], lowestId := 0,
          highestId := 0, hasNewData := true } := rfl
  refine ⟨fun hex => put_dup q y k hex, rfl, ?_, ?_⟩
  · rw [hq1]
    exact put_dup _ y k ⟨(1, x, k), List.mem_cons_self _ _, rfl⟩
  · rfl

/-- Closed instance of C5 at concrete payloads and key. -/
theorem claim_C5_duplicate_put_witness :
    ((∃ r ∈ (PQ.put (PQ.new 100 50 : PQ Nat Nat) 5 7).2.table, r.2.2 = 7) →
      (PQ.put (PQ.new 100 50 : PQ Nat Nat) 5 7).2.put 6 7
        = (.error .alreadyExists, (PQ.put (PQ.new 100 50 : PQ Nat Nat) 5 7).2)) ∧
    (PQ.put (PQ.new 100 50 : PQ Nat Nat) 5 7).2.qsize = 1 ∧
    (PQ.put (PQ.new 100 50 : PQ Nat Nat) 5 7).2.put 6 7
      = (.error .alreadyExists, (PQ.put (PQ.new 100 50 : PQ Nat Nat) 5 7).2) ∧
    (PQ.put (PQ.new 100 50 : PQ Nat Nat) 5 7).2.get.1 = .ok 5 :=
  claim_C5_duplicate_put (PQ.put (PQ.new 100 50 : PQ Nat Nat) 5 7).2 5 6 7

end Fileconveyor

namespace Fileconveyor
variable {α : Type} {κ : Type} [DecidableEq κ]

/-- C6: `update(item, key)` raises `UpdateForNonExistingKey` exactly when
no entry with the key's hash exists; in that error case the whole state
(size, storage, window) is unchanged; when the key exists the call
succeeds and replaces the payload in place: ids, keys and their order are
untouched, rows with other keys are untouched, and the size is
unchanged. -/
theorem claim_C6_update_missing_key (q : PQ α κ) (y : α) (k : κ)
    (hR : Reachable q) :
    ((q.update y k).1 = .error .updateForNonExistingKey ↔
      ∀ r ∈ q.table, ¬ r.2.2 = k) ∧
    ((∀ r ∈ q.table, ¬ r.2.2 = k) →
      q.update y k = (.error .updateForNonExistingKey, q)) ∧
    ((∃ r ∈ q.table, r.2.2 = k) →
      (q.update y k).1 = .ok () ∧
      (q.update y k).2.table.map (fun r => (r.1, r.2.2))
        = q.table.map (fun r => (r.1, r.2.2)) ∧
      (∀ r ∈ (q.update y k).2.table, r.2.2 = k → r.2.1 = y) ∧
      (∀ r ∈ (q.update y k).2.table, ¬ r.2.2 = k → r ∈ q.table) ∧
      (q.update y k).2.size = q.size) := by
  have hI := reach_inv q hR
  have habs : (∀ r ∈ q.table, ¬ r.2.2 = k) →
      q.update y k = (.error .updateForNonExistingKey, q) := update_absent q y k
  refine ⟨⟨?_, fun h => by rw [habs h]⟩, habs, ?_⟩
  · intro herr
    by_contra hc
    push_neg at hc
    obtain ⟨r0, hr0, hk⟩ := hc
    have hok := (update_spec q y k hI hr0 hk).1
    rw [hok] at herr
    simp at herr
  · intro hex
    obtain ⟨r0, hr0, hk⟩ := hex
    obtain ⟨u1, u2, u3, u4, u5, u6, u7⟩ := update_spec q y k hI hr0 hk
    refine ⟨u1, ?_, ?_, ?_, u3⟩
    · rw [u2, List.map_map]
      apply List.map_congr_left
      intro s hs
      show ((fun r : Int × α × κ => (r.1, r.2.2))
        (if s.2.2 = k then (s.1, y, s.2.2) else s)) = _
      split <;> rfl
    · intro r hr hkey
      rw [u2] at hr
      obtain ⟨s, hs, rfl⟩ := List.mem_map.mp hr
      by_cases h : s.2.2 = k
      · simp [h]
      · rw [if_neg h] at hkey
        exact absurd hkey h
    · intro r hr hne
      rw [u2] at hr
      obtain ⟨s, hs, rfl⟩ := List.mem_map.mp hr
      by_cases h : s.2.2 = k
      · rw [if_pos h] at hne
        exact absurd h (by simpa using hne)
      · rw [if_neg h]
        exact hs

/-- Closed instance of C6 on the one-element queue. -/
theorem claim_C6_update_missing_key_witness :
    (((PQ.put (PQ.new 2 1 : PQ Nat Nat) 5 7).2.update 9 7).1
        = .error .updateForNonExistingKey ↔
      ∀ r ∈ (PQ.put (PQ.new 2 1 : PQ Nat Nat) 5 7).2.table, ¬ r.2.2 = 7) ∧
    ((∀ r ∈ (PQ.put (PQ.new 2 1 : PQ Nat Nat) 5 7).2.table, ¬ r.2.2 = 7) →
      (PQ.put (PQ.new 2 1 : PQ Nat Nat) 5 7).2.update 9 7
        = (.error .updateForNonExistingKey,
           (PQ.put (PQ.new 2 1 : PQ Nat Nat) 5 7).2)) ∧
    ((∃ r ∈ (PQ.put (PQ.new 2 1 : PQ Nat Nat) 5 7).2.table, r.2.2 = 7) →
      (((PQ.put (PQ.new 2 1 : PQ Nat Nat) 5 7).2.update 9 7).1 = .ok ()) ∧
      ((PQ.put (PQ.new 2 1 : PQ Nat Nat) 5 7).2.update 9 7).2.table.map
          (fun r => (r.1, r.2.2))
        = (PQ.put (PQ.new 2 1 : PQ Nat Nat) 5 7).2.table.map
          (fun r => (r.1, r.2.2)) ∧
      (∀ r ∈ ((PQ.put (PQ.new 2 1 : PQ Nat Nat) 5 7).2.update 9 7).2.table,
        r.2.2 = 7 → r.2.1 = 9) ∧
      (∀ r ∈ ((PQ.put (PQ.new 2 1 : PQ Nat Nat) 5 7).2.update 9 7).2.table,
        ¬ r.2.2 = 7 → r ∈ (PQ.put (PQ.new 2 1 : PQ Nat Nat) 5 7).2.table) ∧
      ((PQ.put (PQ.new 2 1 : PQ Nat Nat) 5 7).2.update 9 7).2.size
        = (PQ.put (PQ.new 2 1 : PQ Nat Nat) 5 7).2.size) :=
  claim_C6_update_missing_key (PQ.put (PQ.new 2 1 : PQ Nat Nat) 5 7).2 9 7
    (Reachable.putR (PQ.new 2 1) 5 7
      (Reachable.init 2 1 (by decide) (by decide)))

/-- C7: after `update(y, k)` on a queue whose row for `k` has its id
inside the current in-memory window, no stale payload survives: every
table row and every window entry at that id now carries `y`, and a
subsequent `peek` that observes that id at the window head returns `y`,
never the payload stored before the update. -/
theorem claim_C7_update_in_window (q : PQ α κ) (idv : Int) (x y : α)
    (k : κ) (hR : Reachable q) (hrow : (idv, x, k) ∈ q.table)
    (hwin : ∃ p ∈ q.memoryQueue, p.1 = idv) :
    (q.update y k).1 = .ok () ∧
    (∀ r ∈ (q.update y k).2.table, r.1 = idv → r.2.1 = y) ∧
    (∀ p ∈ (q.update y k).2.memoryQueue, p.1 = idv → p.2 = y) ∧
    (∀ v, (q.update y k).2.memoryQueue.head? = some (idv, v) →
      (q.update y k).2.peek.1 = .ok y) := by
  have hI := reach_inv q hR
  obtain ⟨u1, u2, u3, u4, u5, u6, u7⟩ := update_spec q y k hI hrow rfl
  have hc2 : ∀ r ∈ (q.update y k).2.table, r.1 = idv → r.2.1 = y := by
    intro r hr h1
    rw [u2] at hr
    obtain ⟨s, hs, rfl⟩ := List.mem_map.mp hr
    have hs1 : s.1 = idv := by
      have h1' : ((if s.2.2 = k then (s.1, y, s.2.2) else s) :
          Int × α × κ).1 = s.1 := by
        split <;> rfl
      rw [h1'] at h1
      exact h1
    have hse : s = (idv, x, k) :=
      ids_inj hI.1.sorted hs hrow (by rw [hs1])
    rw [hse]
    simp
  refine ⟨u1, hc2, ?_, ?_⟩
  · intro p hp h1
    have hw := u7.2.window
    rw [hw] at hp
    obtain ⟨s, hs, rfl⟩ := List.mem_map.mp hp
    exact hc2 s ((List.take_sublist _ _).subset hs) h1
  · intro v hhead
    have hne : (q.update y k).2.table ≠ [] := by
      intro hc
      rw [u2] at hc
      have hqt : q.table = [] := by simpa using hc
      rw [hqt] at hrow
      cases hrow
    obtain ⟨hd, tl, e1, e2, e3, e4, e5, e6⟩ := peek_spec _ u7 hne
    have hw := u7.2.window
    rw [e1] at hw
    cases hL : (q.update y k).2.memoryQueue.length with
    | zero =>
      have hnil : (q.update y k).2.memoryQueue = [] :=
        List.length_eq_zero.mp hL
      rw [hnil] at hhead
      simp at hhead
    | succ L0 =>
      rw [hL, List.take_succ_cons, List.map_cons] at hw
      have hh2 := congrArg List.head? hw
      rw [hhead] at hh2
      simp only [List.head?_cons, Option.some.injEq, Prod.mk.injEq] at hh2
      obtain ⟨hid, hv⟩ := hh2
      rw [e2]
      have hhy : hd.2.1 = y := hc2 hd
        (by rw [e1]; exact List.mem_cons_self _ _) hid.symm
      rw [hhy]

/-- Closed instance of C7: `put 5 (key 7); peek` (window holds id 1),
then `update 6 (key 7)`. -/
theorem claim_C7_update_in_window_witness :
    ((PQ.peek (PQ.put (PQ.new 2 1 : PQ Nat Nat) 5 7).2).2.update 6 7).1
      = .ok () ∧
    (∀ r ∈ ((PQ.peek (PQ.put (PQ.new 2 1 : PQ Nat Nat) 5 7).2).2.update
        6 7).2.table, r.1 = 1 → r.2.1 = 6) ∧
    (∀ p ∈ ((PQ.peek (PQ.put (PQ.new 2 1 : PQ Nat Nat) 5 7).2).2.update
        6 7).2.memoryQueue, p.1 = 1 → p.2 = 6) ∧
    (∀ v, ((PQ.peek (PQ.put (PQ.new 2 1 : PQ Nat Nat) 5 7).2).2.update
          6 7).2.memoryQueue.head? = some (1, v) →
      ((PQ.peek (PQ.put (PQ.new 2 1 : PQ Nat Nat) 5 7).2).2.update
          6 7).2.peek.1 = .ok 6) :=
  claim_C7_update_in_window
    (PQ.peek (PQ.put (PQ.new 2 1 : PQ Nat Nat) 5 7).2).2 1 5 6 7
    (Reachable.peekR (PQ.put (PQ.new 2 1 : PQ Nat Nat) 5 7).2
      (Reachable.putR (PQ.new 2 1) 5 7
        (Reachable.init 2 1 (by decide) (by decide))))
    (by decide) (by decide)

/-- C10: `remove_item_for_key` of a key hash absent from the queue
returns normally and is a complete no-op: the whole state — and hence
`qsize()`, the stored rows and the in-memory window — is unchanged. -/
theorem claim_C10_remove_absent_key (q : PQ α κ) (k : κ)
    (habs : ∀ r ∈ q.table, ¬ r.2.2 = k) :
    q.remove_item_for_key k = q ∧
    (q.remove_item_for_key k).qsize = q.qsize ∧
    (q.remove_item_for_key k).table = q.table ∧
    (q.remove_item_for_key k).memoryQueue = q.memoryQueue := by
  have h := remove_absent q k habs
  exact ⟨h, by rw [h], by rw [h], by rw [h]⟩

/-- Closed instance of C10 with an absent key hash. -/
theorem claim_C10_remove_absent_key_witness :
    (PQ.put (PQ.new 2 1 : PQ Nat Nat) 5 7).2.remove_item_for_key 99
      = (PQ.put (PQ.new 2 1 : PQ Nat Nat) 5 7).2 ∧
    ((PQ.put (PQ.new 2 1 : PQ Nat Nat) 5 7).2.remove_item_for_key 99).qsize
      = (PQ.put (PQ.new 2 1 : PQ Nat Nat) 5 7).2.qsize ∧
    ((PQ.put (PQ.new 2 1 : PQ Nat Nat) 5 7).2.remove_item_for_key 99).table
      = (PQ.put (PQ.new 2 1 : PQ Nat Nat) 5 7).2.table ∧
    ((PQ.put (PQ.new 2 1 : PQ Nat Nat) 5 7).2.remove_item_for_key
        99).memoryQueue
      = (PQ.put (PQ.new 2 1 : PQ Nat Nat) 5 7).2.memoryQueue :=
  claim_C10_remove_absent_key (PQ.put (PQ.new 2 1 : PQ Nat Nat) 5 7).2 99
    (by decide)

/-- C8 (code defect, flagged in the spec's open questions): on a tick
where the remove-queue is non-empty, `__process_queues` dequeues from the
ADD queue (`path = self.add_queue.get()`), obtaining a `(path, mask)`
tuple that can never equal a monitored-path key, so nothing is
unregistered and the remove request is never consumed; with an empty add
queue the `Queue.get()` call blocks forever. -/
theorem claim_C8_remove_drain :
    processQueues { addQueue := [("/b", 1), ("/c", 1)],
                    removeQueue := [PyVal.str "/a"],
                    monitoredPaths := ["/a"] }
      = some { addQueue := [],
               removeQueue := [PyVal.str "/a"],
               monitoredPaths := ["/a", "/b"] } ∧
    processQueues { addQueue := [],
                    removeQueue := [PyVal.str "/a"],
                    monitoredPaths := ["/a"] } = none := by
  constructor
  · rfl
  · rfl

/-- C9: the forward event translation maps a canonical mask to the
bitwise OR of the kernel bits of each canonical kind set in it; in
particular `MODIFIED` maps to `IN_MODIFY ||| IN_ATTRIB`. -/
theorem claim_C9_event_mapping :
    (∀ b1 b2 b3 b4 b5 : Bool,
      fsmonitorEventToInotifyEvent
        ((cond b1 FSMonitor.CREATED 0) ||| (cond b2 FSMonitor.MODIFIED 0) |||
         (cond b3 FSMonitor.DELETED 0) |||
         (cond b4 FSMonitor.MONITORED_DIR_MOVED 0) |||
         (cond b5 FSMonitor.DROPPED_EVENTS 0))
      = ((cond b1 IN_CREATE 0) ||| (cond b2 (IN_MODIFY ||| IN_ATTRIB) 0) |||
         (cond b3 IN_DELETE 0) ||| (cond b4 IN_MOVE_SELF 0) |||
         (cond b5 IN_Q_OVERFLOW 0))) ∧
    fsmonitorEventToInotifyEvent FSMonitor.MODIFIED
      = IN_MODIFY ||| IN_ATTRIB := by
  constructor
  · decide
  · decide

end Fileconveyor
